import Mathlib

/-!
# Verification of the voxel ray tracer core

Shallow embedding of the integer/geometry core of the voxel ray tracer:
the `IAabb` primitive (octant indexing, lattice iteration, power-of-two
expansion, slab intersection), the dense chunk store with its DDA
traversal, the sparse octree store (insert / get / front-to-back ray
traversal) and the camera ray generation.

Modelling conventions:
* `i32` values are modelled as `ℤ`.  Machine-width wrap-around is modelled
  explicitly where it is load-bearing (the `u32 → i32` cast inside
  `next_pow2`); elsewhere the claims are about in-range arithmetic.
* `f32` values are modelled exactly: finite floats are rationals, and the
  IEEE special values produced by the slab test (division by zero giving
  infinities, `0 · ∞` giving NaN) are modelled by an extended-rational
  type `F` whose operations follow the Rust `f32` semantics used by the
  source (`max`/`min` ignore NaN, comparisons with NaN are false, casts
  to `i32` saturate and send NaN to 0).  Rounding is not modelled; every
  concrete evaluation below uses values on which the `f32` computation is
  exact. `-0.0` is identified with `0.0` (the sign of a zero only feeds
  `is_sign_positive`/`signum`, where the model fixes the `+0.0` case).
* Square roots (`normalize`, `distance`) are modelled by `ratSqrt`, exact
  on perfect squares; all concrete evaluations only take square roots of
  perfect squares.
-/

/-- Integer 3-vector (glam `IVec3`, components modelled as `ℤ`). -/
structure IVec3 where
  x : ℤ
  y : ℤ
  z : ℤ
deriving DecidableEq, Repr

namespace IVec3

def add (a b : IVec3) : IVec3 := ⟨a.x + b.x, a.y + b.y, a.z + b.z⟩

def sub (a b : IVec3) : IVec3 := ⟨a.x - b.x, a.y - b.y, a.z - b.z⟩

def mul (a b : IVec3) : IVec3 := ⟨a.x * b.x, a.y * b.y, a.z * b.z⟩

instance : Add IVec3 := ⟨add⟩

instance : Sub IVec3 := ⟨sub⟩

instance : Mul IVec3 := ⟨mul⟩

/-- glam `max_element`. -/
def maxElement (v : IVec3) : ℤ := max v.x (max v.y v.z)

@[simp] theorem add_x (a b : IVec3) : (a + b).x = a.x + b.x := rfl

@[simp] theorem add_y (a b : IVec3) : (a + b).y = a.y + b.y := rfl

@[simp] theorem add_z (a b : IVec3) : (a + b).z = a.z + b.z := rfl

@[simp] theorem sub_x (a b : IVec3) : (a - b).x = a.x - b.x := rfl

@[simp] theorem sub_y (a b : IVec3) : (a - b).y = a.y - b.y := rfl

@[simp] theorem sub_z (a b : IVec3) : (a - b).z = a.z - b.z := rfl

@[simp] theorem mul_x (a b : IVec3) : (a * b).x = a.x * b.x := rfl

@[simp] theorem mul_y (a b : IVec3) : (a * b).y = a.y * b.y := rfl

@[simp] theorem mul_z (a b : IVec3) : (a * b).z = a.z * b.z := rfl

end IVec3

/-- Voxel datum: a 3-channel color.  The `u8` range of the channels is
immaterial to every claim below, so components are modelled as integers. -/
structure Voxel where
  color : IVec3
deriving DecidableEq, Repr

/-- Signed-integer axis-aligned bounding box (`IAabb`). -/
structure IAabb where
  origin : IVec3
  extents : IVec3
deriving DecidableEq, Repr

/-- Rust `a..b` over `i32`, as the list of its elements. -/
def intRange (a b : ℤ) : List ℤ :=
  (List.range (b - a).toNat).map (fun i : ℕ => a + (i : ℤ))

/-- `if`-to-numeral helper for the octant bit computations. -/
def bit01 (b : Prop) [Decidable b] : ℤ := if b then 1 else 0

theorem bit01_nonneg (b : Prop) [Decidable b] : 0 ≤ bit01 b := by
  unfold bit01; split <;> omega

theorem bit01_le_one (b : Prop) [Decidable b] : bit01 b ≤ 1 := by
  unfold bit01; split <;> omega

namespace IAabb

/-- Width of box (x): `(extents.x * 2) as usize`. -/
def width (bb : IAabb) : ℕ := (bb.extents.x * 2).toNat

/-- Height of box (y): `(extents.y * 2) as usize`. -/
def height (bb : IAabb) : ℕ := (bb.extents.y * 2).toNat

/-- Length of box (z): `(extents.z * 2) as usize`. -/
def length (bb : IAabb) : ℕ := (bb.extents.z * 2).toNat

/-- Get minimum point in bounds. -/
def min (bb : IAabb) : IVec3 := bb.origin - bb.extents

/-- Get maximum point in bounds. -/
def max (bb : IAabb) : IVec3 := bb.origin + bb.extents

/-- `iter()`: cartesian product of the three per-axis ranges, `x` outermost
and `z` innermost. -/
def iterList (bb : IAabb) : List IVec3 :=
  (intRange (bb.origin.x - bb.extents.x) (bb.origin.x + bb.extents.x)).flatMap fun x =>
    (intRange (bb.origin.y - bb.extents.y) (bb.origin.y + bb.extents.y)).flatMap fun y =>
      (intRange (bb.origin.z - bb.extents.z) (bb.origin.z + bb.extents.z)).map fun z =>
        IVec3.mk x y z

/-- `index_of`: octant index of `pos` relative to `origin`, `none` when out
of bounds.  The local position is `pos - origin`, the octant bits are
`local > 0` per axis packed as `x | y << 1 | z << 2` (written here as
`bx + 2*by + 4*bz`), and the bounds check `|local'| ≤ extents` is done on
the shifted local position `local' = local - (1 - bit)` per axis. -/
def indexOf (bb : IAabb) (pos : IVec3) : Option (Fin 8) :=
  if |pos.x - bb.origin.x - (1 - bit01 (0 < pos.x - bb.origin.x))| ≤ bb.extents.x ∧
      |pos.y - bb.origin.y - (1 - bit01 (0 < pos.y - bb.origin.y))| ≤ bb.extents.y ∧
      |pos.z - bb.origin.z - (1 - bit01 (0 < pos.z - bb.origin.z))| ≤ bb.extents.z then
    some ⟨(bit01 (0 < pos.x - bb.origin.x) + 2 * bit01 (0 < pos.y - bb.origin.y) +
        4 * bit01 (0 < pos.z - bb.origin.z)).toNat, by
      have h1 := bit01_nonneg (0 < pos.x - bb.origin.x)
      have h2 := bit01_le_one (0 < pos.x - bb.origin.x)
      have h3 := bit01_nonneg (0 < pos.y - bb.origin.y)
      have h4 := bit01_le_one (0 < pos.y - bb.origin.y)
      have h5 := bit01_nonneg (0 < pos.z - bb.origin.z)
      have h6 := bit01_le_one (0 < pos.z - bb.origin.z)
      omega⟩
  else
    none

/-- `octant`: the sub-AABB for octant `idx`.  Extents are halved with
division toward zero (they are positive everywhere this is used, where all
integer division flavors agree). -/
def octant (bb : IAabb) (idx : Fin 8) : IAabb :=
  let ex := bb.extents.x / 2
  let ey := bb.extents.y / 2
  let ez := bb.extents.z / 2
  let ox := ((idx.val &&& 1 : ℕ) : ℤ) * 2 - 1
  let oy := (((idx.val &&& 2) >>> 1 : ℕ) : ℤ) * 2 - 1
  let oz := (((idx.val &&& 4) >>> 2 : ℕ) : ℤ) * 2 - 1
  { origin := bb.origin + (IVec3.mk ex ey ez) * (IVec3.mk ox oy oz),
    extents := IVec3.mk ex ey ez }

/-- `is_unit`: longest side is one. -/
def isUnit (bb : IAabb) : Bool := bb.extents.maxElement = 1

/-- The `u32 → i32` wrap-around cast (`as i32`). -/
def i32ofU32 (n : ℕ) : ℤ :=
  if n % 2 ^ 32 < 2 ^ 31 then ((n % 2 ^ 32 : ℕ) : ℤ) else ((n % 2 ^ 32 : ℕ) : ℤ) - 2 ^ 32

/-- The five-step bit smear of `next_pow2` on a `u32` value. -/
def u32smear (m : ℕ) : ℕ :=
  let a := m ||| (m >>> 1)
  let b := a ||| (a >>> 2)
  let c := b ||| (b >>> 4)
  let d := c ||| (c >>> 8)
  d ||| (d >>> 16)

/-- `next_pow2`: cube with the same origin and extents
`(smear(max_element) + 1)` cast back to `i32`. -/
def nextPow2 (bb : IAabb) : IAabb :=
  let m := (bb.extents.maxElement).toNat
  let p := i32ofU32 (u32smear m + 1)
  { origin := bb.origin, extents := IVec3.mk p p p }

end IAabb

section IndexOfFacts

/-- Per-axis acceptance of the shifted bounds check in `index_of`. -/
theorem shifted_abs_le_iff (l e : ℤ) :
    |l - (1 - bit01 (0 < l))| ≤ e ↔ (-e < l ∧ l ≤ e) := by
  unfold bit01
  split <;> rw [abs_le] <;> omega

/-- The in-bounds condition of `index_of`: acceptance is
`origin − extents < pos ≤ origin + extents` on every axis. -/
def inAcc (bb : IAabb) (pos : IVec3) : Prop :=
  (bb.origin.x - bb.extents.x < pos.x ∧ pos.x ≤ bb.origin.x + bb.extents.x) ∧
  (bb.origin.y - bb.extents.y < pos.y ∧ pos.y ≤ bb.origin.y + bb.extents.y) ∧
  (bb.origin.z - bb.extents.z < pos.z ∧ pos.z ≤ bb.origin.z + bb.extents.z)

instance (bb : IAabb) (pos : IVec3) : Decidable (inAcc bb pos) := by
  unfold inAcc; infer_instance

/-- The octant index that `index_of` computes when `pos` is in bounds. -/
def octIdx (bb : IAabb) (pos : IVec3) : Fin 8 :=
  ⟨(bit01 (0 < pos.x - bb.origin.x) + 2 * bit01 (0 < pos.y - bb.origin.y) +
      4 * bit01 (0 < pos.z - bb.origin.z)).toNat, by
    have h1 := bit01_nonneg (0 < pos.x - bb.origin.x)
    have h2 := bit01_le_one (0 < pos.x - bb.origin.x)
    have h3 := bit01_nonneg (0 < pos.y - bb.origin.y)
    have h4 := bit01_le_one (0 < pos.y - bb.origin.y)
    have h5 := bit01_nonneg (0 < pos.z - bb.origin.z)
    have h6 := bit01_le_one (0 < pos.z - bb.origin.z)
    omega⟩

theorem indexOf_eq_if (bb : IAabb) (pos : IVec3) :
    bb.indexOf pos = if inAcc bb pos then some (octIdx bb pos) else none := by
  unfold IAabb.indexOf inAcc octIdx
  have hx := shifted_abs_le_iff (pos.x - bb.origin.x) bb.extents.x
  have hy := shifted_abs_le_iff (pos.y - bb.origin.y) bb.extents.y
  have hz := shifted_abs_le_iff (pos.z - bb.origin.z) bb.extents.z
  by_cases h : (-bb.extents.x < pos.x - bb.origin.x ∧ pos.x - bb.origin.x ≤ bb.extents.x) ∧
      (-bb.extents.y < pos.y - bb.origin.y ∧ pos.y - bb.origin.y ≤ bb.extents.y) ∧
      (-bb.extents.z < pos.z - bb.origin.z ∧ pos.z - bb.origin.z ≤ bb.extents.z)
  · rw [if_pos ⟨hx.mpr h.1, hy.mpr h.2.1, hz.mpr h.2.2⟩, if_pos (by omega)]
  · rw [if_neg (fun hc => h ⟨hx.mp hc.1, hy.mp hc.2.1, hz.mp hc.2.2⟩),
      if_neg (fun hc => h (by omega))]

theorem indexOf_eq_some_of_inAcc (bb : IAabb) (pos : IVec3) (h : inAcc bb pos) :
    bb.indexOf pos = some (octIdx bb pos) := by
  rw [indexOf_eq_if, if_pos h]

theorem indexOf_eq_none_of_not_inAcc (bb : IAabb) (pos : IVec3) (h : ¬ inAcc bb pos) :
    bb.indexOf pos = none := by
  rw [indexOf_eq_if, if_neg h]

theorem indexOf_isSome_iff (bb : IAabb) (pos : IVec3) :
    (bb.indexOf pos).isSome ↔ inAcc bb pos := by
  rw [indexOf_eq_if]
  by_cases h : inAcc bb pos
  · simp [h]
  · simp [h]

end IndexOfFacts

section IterFacts

theorem mem_intRange {a b v : ℤ} : v ∈ intRange a b ↔ a ≤ v ∧ v < b := by
  unfold intRange
  rw [List.mem_map]
  constructor
  · rintro ⟨i, hi, rfl⟩
    rw [List.mem_range] at hi
    omega
  · intro h
    refine ⟨(v - a).toNat, ?_, ?_⟩
    · rw [List.mem_range]; omega
    · omega

theorem mem_iterList {bb : IAabb} {p : IVec3} :
    p ∈ bb.iterList ↔
      (bb.origin.x - bb.extents.x ≤ p.x ∧ p.x < bb.origin.x + bb.extents.x) ∧
      (bb.origin.y - bb.extents.y ≤ p.y ∧ p.y < bb.origin.y + bb.extents.y) ∧
      (bb.origin.z - bb.extents.z ≤ p.z ∧ p.z < bb.origin.z + bb.extents.z) := by
  simp only [IAabb.iterList, List.mem_flatMap, List.mem_map]
  constructor
  · rintro ⟨x, hx, y, hy, z, hz, rfl⟩
    exact ⟨mem_intRange.mp hx, mem_intRange.mp hy, mem_intRange.mp hz⟩
  · rintro ⟨hx, hy, hz⟩
    exact ⟨p.x, mem_intRange.mpr hx, p.y, mem_intRange.mpr hy, p.z, mem_intRange.mpr hz, rfl⟩

end IterFacts

/-- C5: for every AABB `bb` with strictly positive extents and every integer
point `pos`, `bb.index_of(pos)` returns some index iff on every axis
`origin − extents < pos ≤ origin + extents`; in particular
`index_of(bb.max())` is some while `index_of(bb.min())` is none, and a unit
AABB addresses exactly the eight cells with local coordinates in `{0,1}³`,
with octant bit `a` set iff the local coordinate on axis `a` is `1`. -/
theorem claim_C5_indexOf_acceptance (bb : IAabb)
    (hex : 0 < bb.extents.x) (hey : 0 < bb.extents.y) (hez : 0 < bb.extents.z) :
    (∀ pos : IVec3, (bb.indexOf pos).isSome ↔
      ((bb.origin.x - bb.extents.x < pos.x ∧ pos.x ≤ bb.origin.x + bb.extents.x) ∧
       (bb.origin.y - bb.extents.y < pos.y ∧ pos.y ≤ bb.origin.y + bb.extents.y) ∧
       (bb.origin.z - bb.extents.z < pos.z ∧ pos.z ≤ bb.origin.z + bb.extents.z))) ∧
    (bb.indexOf bb.max).isSome ∧
    bb.indexOf bb.min = none ∧
    (∀ (o pos : IVec3) (i : Fin 8),
      (IAabb.mk o (IVec3.mk 1 1 1)).indexOf pos = some i ↔
        ((pos.x - o.x = 0 ∨ pos.x - o.x = 1) ∧ (pos.y - o.y = 0 ∨ pos.y - o.y = 1) ∧
         (pos.z - o.z = 0 ∨ pos.z - o.z = 1) ∧
         (i : ℕ) = (if pos.x - o.x = 1 then 1 else 0) + 2 * (if pos.y - o.y = 1 then 1 else 0) +
           4 * (if pos.z - o.z = 1 then 1 else 0))) := by
  refine ⟨fun pos => (indexOf_isSome_iff bb pos).trans Iff.rfl, ?_, ?_, ?_⟩
  · rw [indexOf_isSome_iff]
    unfold inAcc IAabb.max
    simp only [IVec3.add_x, IVec3.add_y, IVec3.add_z]
    omega
  · apply indexOf_eq_none_of_not_inAcc
    unfold inAcc IAabb.min
    simp only [IVec3.sub_x, IVec3.sub_y, IVec3.sub_z]
    omega
  · intro o pos i
    rw [indexOf_eq_if]
    constructor
    · intro h
      split at h
      · rename_i hacc
        cases h
        unfold inAcc at hacc
        simp only at hacc
        refine ⟨by omega, by omega, by omega, ?_⟩
        unfold octIdx bit01
        simp only
        split <;> split <;> split <;> split <;> split <;> split <;> omega
      · cases h
    · rintro ⟨h1, h2, h3, h4⟩
      have hacc : inAcc (IAabb.mk o (IVec3.mk 1 1 1)) pos := by
        unfold inAcc; simp only; omega
      rw [if_pos hacc]
      congr 1
      apply Fin.ext
      rw [h4]
      unfold octIdx bit01
      simp only
      split <;> split <;> split <;> split <;> split <;> split <;> omega

/-- Witness for C5 at the unit box at the origin. -/
theorem claim_C5_indexOf_acceptance_witness :
    (0 : ℤ) < 1 ∧
      (IAabb.mk (IVec3.mk 0 0 0) (IVec3.mk 1 1 1)).indexOf
        (IAabb.mk (IVec3.mk 0 0 0) (IVec3.mk 1 1 1)).min = none :=
  ⟨by decide,
    (claim_C5_indexOf_acceptance (IAabb.mk (IVec3.mk 0 0 0) (IVec3.mk 1 1 1))
      (by decide) (by decide) (by decide)).2.2.1⟩

/-- C4 counterexample: `bb.min()` is produced by `bb.iter()` but
`index_of(bb.min())` is `none`, refuting the first conjunct of C4. -/
theorem claim_C4_counterexample :
    IVec3.mk (-1) (-1) (-1) ∈ (IAabb.mk (IVec3.mk 0 0 0) (IVec3.mk 1 1 1)).iterList ∧
    (IAabb.mk (IVec3.mk 0 0 0) (IVec3.mk 1 1 1)).indexOf (IVec3.mk (-1) (-1) (-1)) = none := by
  constructor
  · decide
  · decide

/-- C4 (amended): for every AABB with strictly positive extents, a lattice
point of `bb.iter()` whose coordinates all exceed the corresponding
coordinate of `bb.min()` gets some octant index in `[0,8)`; points of
`bb.iter()` with any coordinate equal to that of `bb.min()` (in particular
`bb.min()` itself) get none; and every point strictly outside the closed
box `[min, max]` gets none. -/
theorem claim_C4_iter_indexOf (bb : IAabb)
    (hex : 0 < bb.extents.x) (hey : 0 < bb.extents.y) (hez : 0 < bb.extents.z) :
    (∀ p ∈ bb.iterList, bb.min.x < p.x → bb.min.y < p.y → bb.min.z < p.z →
      ∃ i : Fin 8, bb.indexOf p = some i) ∧
    (∀ p ∈ bb.iterList, (p.x = bb.min.x ∨ p.y = bb.min.y ∨ p.z = bb.min.z) →
      bb.indexOf p = none) ∧
    (∀ q : IVec3, (q.x < bb.min.x ∨ bb.max.x < q.x ∨ q.y < bb.min.y ∨ bb.max.y < q.y ∨
        q.z < bb.min.z ∨ bb.max.z < q.z) → bb.indexOf q = none) := by
  refine ⟨?_, ?_, ?_⟩
  · intro p hp h1 h2 h3
    have h1' : bb.origin.x - bb.extents.x < p.x := h1
    have h2' : bb.origin.y - bb.extents.y < p.y := h2
    have h3' : bb.origin.z - bb.extents.z < p.z := h3
    have hm := mem_iterList.mp hp
    exact ⟨octIdx bb p, indexOf_eq_some_of_inAcc bb p (by unfold inAcc; omega)⟩
  · intro p hp h
    have hm := mem_iterList.mp hp
    have h' : p.x = bb.origin.x - bb.extents.x ∨ p.y = bb.origin.y - bb.extents.y ∨
        p.z = bb.origin.z - bb.extents.z := h
    apply indexOf_eq_none_of_not_inAcc
    unfold inAcc
    omega
  · intro q h
    have h' : q.x < bb.origin.x - bb.extents.x ∨ bb.origin.x + bb.extents.x < q.x ∨
        q.y < bb.origin.y - bb.extents.y ∨ bb.origin.y + bb.extents.y < q.y ∨
        q.z < bb.origin.z - bb.extents.z ∨ bb.origin.z + bb.extents.z < q.z := h
    apply indexOf_eq_none_of_not_inAcc
    unfold inAcc
    omega

/-- Witness for C4 (amended) at the unit box at the origin. -/
theorem claim_C4_iter_indexOf_witness :
    (0 : ℤ) < 1 ∧
      (IAabb.mk (IVec3.mk 0 0 0) (IVec3.mk 1 1 1)).indexOf (IVec3.mk 2 2 2) = none :=
  ⟨by decide,
    (claim_C4_iter_indexOf (IAabb.mk (IVec3.mk 0 0 0) (IVec3.mk 1 1 1))
      (by decide) (by decide) (by decide)).2.2 (IVec3.mk 2 2 2) (by right; left; decide)⟩

section ListIndexing

theorem flatMap_getElem_const {α β : Type} (l : List α) (f : α → List β) (q : ℕ)
    (hf : ∀ a ∈ l, (f a).length = q) (i r : ℕ) (hr : r < q) :
    (l.flatMap f)[i * q + r]? = l[i]?.bind fun a => (f a)[r]? := by
  induction l generalizing i with
  | nil => simp
  | cons a t ih =>
    rw [List.flatMap_cons]
    have ha : (f a).length = q := hf a (List.mem_cons_self a t)
    cases i with
    | zero =>
      rw [Nat.zero_mul, Nat.zero_add]
      rw [List.getElem?_append]
      rw [if_pos (by omega)]
      simp
    | succ i =>
      have hidx : (i + 1) * q + r = (f a).length + (i * q + r) := by
        rw [Nat.succ_mul, ha]; omega
      rw [hidx, List.getElem?_append_right (by omega)]
      simp only [Nat.add_sub_cancel_left, List.getElem?_cons_succ]
      exact ih (fun b hb => hf b (List.mem_cons_of_mem a hb)) i

theorem flatMap_length_const {α β : Type} (l : List α) (f : α → List β) (q : ℕ)
    (hf : ∀ a ∈ l, (f a).length = q) : (l.flatMap f).length = l.length * q := by
  induction l with
  | nil => simp
  | cons a t ih =>
    rw [List.flatMap_cons, List.length_append, hf a (List.mem_cons_self a t),
      ih (fun b hb => hf b (List.mem_cons_of_mem a hb))]
    simp [Nat.succ_mul]
    omega

theorem intRange_length (a b : ℤ) : (intRange a b).length = (b - a).toNat := by
  simp [intRange]

theorem intRange_getElem (a b : ℤ) (i : ℕ) (hi : i < (b - a).toNat) :
    (intRange a b)[i]? = some (a + (i : ℤ)) := by
  unfold intRange
  rw [List.getElem?_map, List.getElem?_range hi]
  rfl

/-- The lattice point of `bb.iter()` at linear position
`z + length·(y + height·x)` is `bb.min() + (x, y, z)`. -/
theorem iterList_getElem (bb : IAabb) (x y z : ℕ)
    (hx : x < bb.width) (hy : y < bb.height) (hz : z < bb.length) :
    bb.iterList[z + bb.length * (y + bb.height * x)]? =
      some (bb.min + IVec3.mk (x : ℤ) (y : ℤ) (z : ℤ)) := by
  have hWx : (bb.origin.x + bb.extents.x - (bb.origin.x - bb.extents.x)).toNat = bb.width := by
    unfold IAabb.width; omega
  have hWy : (bb.origin.y + bb.extents.y - (bb.origin.y - bb.extents.y)).toNat = bb.height := by
    unfold IAabb.height; omega
  have hWz : (bb.origin.z + bb.extents.z - (bb.origin.z - bb.extents.z)).toNat = bb.length := by
    unfold IAabb.length; omega
  have hzlen : ∀ xv yv : ℤ,
      ((intRange (bb.origin.z - bb.extents.z) (bb.origin.z + bb.extents.z)).map
        (fun zv => IVec3.mk xv yv zv)).length = bb.length := by
    intro xv yv
    rw [List.length_map, intRange_length, hWz]
  have hylen : ∀ xv : ℤ,
      ((intRange (bb.origin.y - bb.extents.y) (bb.origin.y + bb.extents.y)).flatMap
        (fun yv => (intRange (bb.origin.z - bb.extents.z) (bb.origin.z + bb.extents.z)).map
          (fun zv => IVec3.mk xv yv zv))).length = bb.height * bb.length := by
    intro xv
    rw [flatMap_length_const _ _ bb.length (fun yv _ => hzlen xv yv), intRange_length, hWy]
  have hidx : z + bb.length * (y + bb.height * x) =
      x * (bb.height * bb.length) + (y * bb.length + z) := by ring
  rw [IAabb.iterList, hidx]
  rw [flatMap_getElem_const _ _ (bb.height * bb.length) (fun xv _ => hylen xv) x
    (y * bb.length + z) ?side1]
  case side1 =>
    have h1 : y * bb.length + z < (y + 1) * bb.length := by rw [Nat.succ_mul]; omega
    have h2 : (y + 1) * bb.length ≤ bb.height * bb.length :=
      Nat.mul_le_mul_right bb.length (by omega)
    omega
  rw [intRange_getElem _ _ x (by omega)]
  rw [Option.some_bind]
  rw [flatMap_getElem_const _ _ bb.length (fun yv _ => hzlen _ yv) y z hz]
  rw [intRange_getElem _ _ y (by omega)]
  rw [Option.some_bind]
  rw [List.getElem?_map, intRange_getElem _ _ z (by omega)]
  rfl

end ListIndexing

/-- Dense chunk storage: an ordered sequence of optional voxels over an
AABB.  The generator is modelled as an arbitrary lookup function. -/
structure Chunk where
  data : List (Option Voxel)
  bb : IAabb
deriving DecidableEq

/-- `DenseStorage::from_voxels`: iterate `bb.iter()` and collect
`generator.lookup(pos)` for each lattice point. -/
def Chunk.fromVoxels (gen : IVec3 → Option Voxel) (bb : IAabb) : Chunk :=
  { data := bb.iterList.map gen, bb := bb }

/-- C7 counterexample: on a non-cubic box (extents `(1,1,2)`) the element
at the claimed linear position `z + width·(y + height·x)` (for offsets
`(x,y,z) = (0,1,0)` this is position `2`) is not the voxel generated at
`min + (0,1,0)`: the actual z-stride of `iter()` is `length`, not
`width`. -/
theorem claim_C7_counterexample :
    ¬ ((Chunk.fromVoxels (fun p => some (Voxel.mk p))
          (IAabb.mk (IVec3.mk 0 0 0) (IVec3.mk 1 1 2))).data[
        0 + (IAabb.mk (IVec3.mk 0 0 0) (IVec3.mk 1 1 2)).width *
          (1 + (IAabb.mk (IVec3.mk 0 0 0) (IVec3.mk 1 1 2)).height * 0)]? =
      some ((fun p => some (Voxel.mk p))
        ((IAabb.mk (IVec3.mk 0 0 0) (IVec3.mk 1 1 2)).min + IVec3.mk 0 1 0))) := by
  decide

/-- C7 (amended): in the dense storage built by `from_voxels(gen, bb)`,
for all offsets `0 ≤ x < width`, `0 ≤ y < height`, `0 ≤ z < length`, the
element at linear position `z + length·(y + height·x)` equals
`gen(bb.min() + (x, y, z))` (the claimed formula `z + width·(y + height·x)`
holds only when `width = length`, e.g. for cubic boxes). -/
theorem claim_C7_dense_layout (gen : IVec3 → Option Voxel) (bb : IAabb)
    (hex : 0 < bb.extents.x) (hey : 0 < bb.extents.y) (hez : 0 < bb.extents.z)
    (x y z : ℕ) (hx : x < bb.width) (hy : y < bb.height) (hz : z < bb.length) :
    (Chunk.fromVoxels gen bb).data[z + bb.length * (y + bb.height * x)]? =
      some (gen (bb.min + IVec3.mk (x : ℤ) (y : ℤ) (z : ℤ))) := by
  unfold Chunk.fromVoxels
  rw [List.getElem?_map, iterList_getElem bb x y z hx hy hz]
  rfl

/-- Witness for C7 (amended) on the unit box at the origin. -/
theorem claim_C7_dense_layout_witness :
    (0 : ℤ) < 1 ∧
    (Chunk.fromVoxels (fun p => some (Voxel.mk p))
        (IAabb.mk (IVec3.mk 0 0 0) (IVec3.mk 1 1 1))).data[
      (1 : ℕ) + (IAabb.mk (IVec3.mk 0 0 0) (IVec3.mk 1 1 1)).length *
        (0 + (IAabb.mk (IVec3.mk 0 0 0) (IVec3.mk 1 1 1)).height * 0)]? =
      some (some (Voxel.mk (IVec3.mk (-1) (-1) 0))) :=
  ⟨by decide,
    claim_C7_dense_layout (fun p => some (Voxel.mk p))
      (IAabb.mk (IVec3.mk 0 0 0) (IVec3.mk 1 1 1))
      (by decide) (by decide) (by decide) 0 0 1 (by decide) (by decide) (by decide)⟩

/-! ## Sparse octree store -/

/-- Octree node: a branch holds 8 optional child indices into the node
arena (the source packs these as `Option<NonZeroUsize>`; the root at
index 0 is never a child), a leaf holds 8 optional voxels. -/
inductive Node where
  | branch (slots : Fin 8 → Option ℕ)
  | leaf (slots : Fin 8 → Option Voxel)
deriving DecidableEq

/-- `Node::from_aabb`: leaf iff the box is unit. -/
def Node.fromAabb (bb : IAabb) : Node :=
  if bb.isUnit then Node.leaf (fun _ => none) else Node.branch (fun _ => none)

/-- Octree: a bounding box plus the node arena; index 0 is the root. -/
structure Octree where
  bb : IAabb
  nodes : List Node
deriving DecidableEq

/-- `Octree::new`: pad the box to a power-of-two cube, allocate the root. -/
def Octree.new (bb : IAabb) : Octree :=
  let b2 := bb.nextPow2
  { bb := b2, nodes := [Node.fromAabb b2] }

/-- The loop body of `Octree::insert`, with explicit fuel (the source loop
terminates because the box halves at every branch step; `insert` below
passes fuel exceeding the tree depth, and all theorems show the fuel is
never exhausted).  Out-of-range arena accesses return `(nodes, false)`;
the source would panic there, and the well-formedness invariant used by
every theorem rules the case out. -/
def insertGo (fuel : ℕ) (nodes : List Node) (curr : ℕ) (bb : IAabb) (pos : IVec3)
    (v : Voxel) : List Node × Bool :=
  match fuel with
  | 0 => (nodes, false)
  | fuel + 1 =>
    match bb.indexOf pos with
    | none => (nodes, false)
    | some idx =>
      match nodes[curr]? with
      | none => (nodes, false)
      | some (Node.branch slots) =>
        match slots idx with
        | some i => insertGo fuel nodes i (bb.octant idx) pos v
        | none =>
          let newIdx := nodes.length
          insertGo fuel
            ((nodes.set curr (Node.branch (Function.update slots idx (some newIdx)))) ++
              [Node.fromAabb (bb.octant idx)])
            newIdx (bb.octant idx) pos v
      | some (Node.leaf slots) =>
        (nodes.set curr (Node.leaf (Function.update slots idx (some v))), true)

/-- `Octree::insert`: descend from the root; true iff inserted. -/
def Octree.insert (o : Octree) (pos : IVec3) (v : Voxel) : Octree × Bool :=
  let r := insertGo (o.bb.extents.x.toNat + 1) o.nodes 0 o.bb pos v
  ({ bb := o.bb, nodes := r.1 }, r.2)

/-- The loop body of `Octree::get`, with explicit fuel as for `insertGo`. -/
def getGo (fuel : ℕ) (nodes : List Node) (curr : ℕ) (bb : IAabb) (pos : IVec3) :
    Option Voxel :=
  match fuel with
  | 0 => none
  | fuel + 1 =>
    match bb.indexOf pos with
    | none => none
    | some idx =>
      match nodes[curr]? with
      | none => none
      | some (Node.branch slots) =>
        match slots idx with
        | none => none
        | some i => getGo fuel nodes i (bb.octant idx) pos
      | some (Node.leaf slots) => slots idx

/-- `Octree::get`. -/
def Octree.get (o : Octree) (pos : IVec3) : Option Voxel :=
  getGo (o.bb.extents.x.toNat + 1) o.nodes 0 o.bb pos

/-- `Octree::set`: skip `none` voxels, insert the rest. -/
def Octree.set (o : Octree) (pos : IVec3) (voxel : Option Voxel) : Octree × Bool :=
  match voxel with
  | some v => o.insert pos v
  | none => (o, true)

/-- `Octree::from_voxels`, with the `assert!(octree.set(..))` made explicit:
the result is `none` exactly when the assertion would fire. -/
def Octree.fromVoxelsChecked (gen : IVec3 → Option Voxel) (bb : IAabb) : Option Octree :=
  bb.iterList.foldl
    (fun acc pos => acc.bind fun o =>
      let r := o.set pos (gen pos)
      if r.2 then some r.1 else none)
    (some (Octree.new bb))

/-- Cube with side `2^(n+1)` (extents `2^n`) used by the octree layers. -/
def cubeBB (org : IVec3) (n : ℕ) : IAabb :=
  { origin := org, extents := IVec3.mk ((2 : ℤ) ^ n) ((2 : ℤ) ^ n) ((2 : ℤ) ^ n) }

/-- Origin of the octant `j` of a cube with extents `2^(m+1)` (the child
has extents `2^m` and its origin is offset by `±2^m` per axis). -/
def childOrg (org : IVec3) (m : ℕ) (j : Fin 8) : IVec3 :=
  { x := org.x + (2 : ℤ) ^ m * (((j.val &&& 1 : ℕ) : ℤ) * 2 - 1),
    y := org.y + (2 : ℤ) ^ m * ((((j.val &&& 2) >>> 1 : ℕ) : ℤ) * 2 - 1),
    z := org.z + (2 : ℤ) ^ m * ((((j.val &&& 4) >>> 2 : ℕ) : ℤ) * 2 - 1) }

theorem octant_cubeBB (org : IVec3) (n : ℕ) (j : Fin 8) :
    (cubeBB org (n + 1)).octant j = cubeBB (childOrg org n j) n := by
  unfold cubeBB IAabb.octant childOrg
  have hdiv : ((2 : ℤ) ^ (n + 1)) / 2 = (2 : ℤ) ^ n := by
    rw [pow_succ]
    exact Int.mul_ediv_cancel _ (by omega)
  simp only [hdiv]
  rfl

theorem octIdx_bits (bb : IAabb) (pos : IVec3) :
    ((octIdx bb pos).val &&& 1 = if 0 < pos.x - bb.origin.x then 1 else 0) ∧
    (((octIdx bb pos).val &&& 2) >>> 1 = if 0 < pos.y - bb.origin.y then 1 else 0) ∧
    (((octIdx bb pos).val &&& 4) >>> 2 = if 0 < pos.z - bb.origin.z then 1 else 0) := by
  unfold octIdx bit01
  split <;> split <;> split <;> rw [Fin.val_mk] <;> exact ⟨by decide, by decide, by decide⟩

@[simp] theorem cubeBB_origin (org : IVec3) (n : ℕ) : (cubeBB org n).origin = org := rfl

@[simp] theorem cubeBB_extents_x (org : IVec3) (n : ℕ) :
    (cubeBB org n).extents.x = (2 : ℤ) ^ n := rfl

@[simp] theorem cubeBB_extents_y (org : IVec3) (n : ℕ) :
    (cubeBB org n).extents.y = (2 : ℤ) ^ n := rfl

@[simp] theorem cubeBB_extents_z (org : IVec3) (n : ℕ) :
    (cubeBB org n).extents.z = (2 : ℤ) ^ n := rfl

@[simp] theorem childOrg_x (org : IVec3) (m : ℕ) (j : Fin 8) :
    (childOrg org m j).x = org.x + (2 : ℤ) ^ m * (((j.val &&& 1 : ℕ) : ℤ) * 2 - 1) := rfl

@[simp] theorem childOrg_y (org : IVec3) (m : ℕ) (j : Fin 8) :
    (childOrg org m j).y = org.y + (2 : ℤ) ^ m * ((((j.val &&& 2) >>> 1 : ℕ) : ℤ) * 2 - 1) := rfl

@[simp] theorem childOrg_z (org : IVec3) (m : ℕ) (j : Fin 8) :
    (childOrg org m j).z = org.z + (2 : ℤ) ^ m * ((((j.val &&& 4) >>> 2 : ℕ) : ℤ) * 2 - 1) := rfl

/-- Acceptance descends through the octant chosen by `index_of`: a point
accepted by a power-of-two cube is accepted by the chosen child cube. -/
theorem inAcc_child (org : IVec3) (n : ℕ) (pos : IVec3)
    (h : inAcc (cubeBB org (n + 1)) pos) :
    inAcc (cubeBB (childOrg org n (octIdx (cubeBB org (n + 1)) pos)) n) pos := by
  obtain ⟨bx, bY, bz⟩ := octIdx_bits (cubeBB org (n + 1)) pos
  unfold inAcc at h ⊢
  simp only [cubeBB_origin, cubeBB_extents_x, cubeBB_extents_y, cubeBB_extents_z,
    childOrg_x, childOrg_y, childOrg_z] at h ⊢
  rw [bx, bY, bz]
  simp only [cubeBB_origin]
  have hp : (2 : ℤ) ^ (n + 1) = 2 ^ n * 2 := pow_succ 2 n
  rw [hp] at h
  split_ifs <;> push_cast <;> omega

/-- Footprint: the set of arena indices reachable from node `i` within
`n` levels. -/
def footN : ℕ → List Node → ℕ → Finset ℕ
  | 0, _, i => {i}
  | n + 1, nodes, i =>
    insert i
      (match nodes[i]? with
       | some (Node.branch cs) =>
         Finset.univ.biUnion fun j : Fin 8 =>
           match cs j with
           | some k => footN n nodes k
           | none => ∅
       | _ => ∅)

/-- Well-formedness of the subtree rooted at arena index `i` for a cube of
extents `2^n` at `org`: leaves exactly at unit boxes, children well-formed
in their octants, and the subtree is a tree (the node is not inside any
child footprint; distinct children have disjoint footprints). -/
def WFN : ℕ → List Node → IVec3 → ℕ → Prop
  | 0, nodes, _, i => ∃ s, nodes[i]? = some (Node.leaf s)
  | n + 1, nodes, org, i =>
    ∃ cs, nodes[i]? = some (Node.branch cs) ∧
      (∀ (j : Fin 8) (k : ℕ), cs j = some k → WFN n nodes (childOrg org n j) k) ∧
      (∀ (j : Fin 8) (k : ℕ), cs j = some k → i ∉ footN n nodes k) ∧
      (∀ (j j' : Fin 8) (k k' : ℕ), j ≠ j' → cs j = some k → cs j' = some k' →
        Disjoint (footN n nodes k) (footN n nodes k'))

theorem self_mem_footN (n : ℕ) (nodes : List Node) (i : ℕ) : i ∈ footN n nodes i := by
  cases n with
  | zero => simp [footN]
  | succ n => simp [footN]

theorem footN_child_subset {n : ℕ} {nodes : List Node} {i k : ℕ} {cs : Fin 8 → Option ℕ}
    (hnode : nodes[i]? = some (Node.branch cs)) {j : Fin 8} (hj : cs j = some k) :
    footN n nodes k ⊆ footN (n + 1) nodes i := by
  intro a ha
  unfold footN
  rw [hnode]
  apply Finset.mem_insert_of_mem
  apply Finset.mem_biUnion.mpr
  exact ⟨j, Finset.mem_univ j, by rw [hj]; exact ha⟩

theorem footN_mem_lt (n : ℕ) :
    ∀ (nodes : List Node) (org : IVec3) (i : ℕ), WFN n nodes org i →
      ∀ k ∈ footN n nodes i, k < nodes.length := by
  induction n with
  | zero =>
    intro nodes org i hwf k hk
    obtain ⟨s, hs⟩ := hwf
    have hi : i < nodes.length := (List.getElem?_eq_some_iff.mp hs).1
    simp only [footN, Finset.mem_singleton] at hk
    omega
  | succ n ih =>
    intro nodes org i hwf k hk
    obtain ⟨cs, hnode, hch, _, _⟩ := hwf
    have hi : i < nodes.length := (List.getElem?_eq_some_iff.mp hnode).1
    unfold footN at hk
    rw [hnode] at hk
    rcases Finset.mem_insert.mp hk with hk | hk
    · omega
    · obtain ⟨j, _, hkj⟩ := Finset.mem_biUnion.mp hk
      cases hcs : cs j with
      | none => rw [hcs] at hkj; cases hkj
      | some m =>
        rw [hcs] at hkj
        exact ih nodes (childOrg org n j) m (hch j m hcs) k hkj

/-- `getGo` only reads arena entries inside the footprint of its root. -/
theorem getGo_congr (n : ℕ) :
    ∀ (nodes nodes2 : List Node) (org : IVec3) (i : ℕ),
      WFN n nodes org i →
      (∀ k ∈ footN n nodes i, nodes2[k]? = nodes[k]?) →
      ∀ (f : ℕ) (bb : IAabb) (pos : IVec3),
        getGo f nodes2 i bb pos = getGo f nodes i bb pos := by
  induction n with
  | zero =>
    intro nodes nodes2 org i hwf hag f bb pos
    obtain ⟨s, hs⟩ := hwf
    have h2 : nodes2[i]? = nodes[i]? := hag i (self_mem_footN 0 nodes i)
    cases f with
    | zero => rfl
    | succ f =>
      cases hio : bb.indexOf pos with
      | none => simp only [getGo, hio]
      | some idx => simp only [getGo, hio, h2, hs]
  | succ n ih =>
    intro nodes nodes2 org i hwf hag f bb pos
    obtain ⟨cs, hnode, hch, _, _⟩ := hwf
    have h2 : nodes2[i]? = nodes[i]? := hag i (self_mem_footN _ nodes i)
    cases f with
    | zero => rfl
    | succ f =>
      cases hio : bb.indexOf pos with
      | none => simp only [getGo, hio]
      | some idx =>
        cases hcs : cs idx with
        | none => simp only [getGo, hio, h2, hnode, hcs]
        | some k =>
          simp only [getGo, hio, h2, hnode, hcs]
          exact ih nodes nodes2 (childOrg org n idx) k (hch idx k hcs)
            (fun a ha => hag a (footN_child_subset hnode hcs ha)) f (bb.octant idx) pos

theorem footN_congr (n : ℕ) :
    ∀ (nodes nodes2 : List Node) (org : IVec3) (i : ℕ),
      WFN n nodes org i →
      (∀ k ∈ footN n nodes i, nodes2[k]? = nodes[k]?) →
      footN n nodes2 i = footN n nodes i := by
  induction n with
  | zero => intro nodes nodes2 org i _ _; rfl
  | succ n ih =>
    intro nodes nodes2 org i hwf hag
    obtain ⟨cs, hnode, hch, _, _⟩ := hwf
    have h2 : nodes2[i]? = nodes[i]? := hag i (self_mem_footN _ nodes i)
    unfold footN
    rw [h2, hnode]
    congr 1
    apply Finset.biUnion_congr rfl
    intro j _
    cases hcs : cs j with
    | none => rfl
    | some k =>
      exact ih nodes nodes2 (childOrg org n j) k (hch j k hcs)
        (fun a ha => hag a (footN_child_subset hnode hcs ha))

theorem WFN_congr (n : ℕ) :
    ∀ (nodes nodes2 : List Node) (org : IVec3) (i : ℕ),
      WFN n nodes org i →
      (∀ k ∈ footN n nodes i, nodes2[k]? = nodes[k]?) →
      WFN n nodes2 org i := by
  induction n with
  | zero =>
    intro nodes nodes2 org i hwf hag
    obtain ⟨s, hs⟩ := hwf
    exact ⟨s, (hag i (self_mem_footN 0 nodes i)).trans hs⟩
  | succ n ih =>
    intro nodes nodes2 org i hwf hag
    obtain ⟨cs, hnode, hch, hni, hdisj⟩ := hwf
    refine ⟨cs, (hag i (self_mem_footN _ nodes i)).trans hnode, ?_, ?_, ?_⟩
    · intro j k hcs
      exact ih nodes nodes2 (childOrg org n j) k (hch j k hcs)
        (fun a ha => hag a (footN_child_subset hnode hcs ha))
    · intro j k hcs
      rw [footN_congr n nodes nodes2 (childOrg org n j) k (hch j k hcs)
        (fun a ha => hag a (footN_child_subset hnode hcs ha))]
      exact hni j k hcs
    · intro j j' k k' hjj hcs hcs'
      rw [footN_congr n nodes nodes2 (childOrg org n j) k (hch j k hcs)
          (fun a ha => hag a (footN_child_subset hnode hcs ha)),
        footN_congr n nodes nodes2 (childOrg org n j') k' (hch j' k' hcs')
          (fun a ha => hag a (footN_child_subset hnode hcs' ha))]
      exact hdisj j j' k k' hjj hcs hcs'

theorem getGo_empty_branch (f : ℕ) (nodes : List Node) (i : ℕ) (bb : IAabb) (pos : IVec3)
    (h : nodes[i]? = some (Node.branch fun _ => none)) :
    getGo f nodes i bb pos = none := by
  cases f with
  | zero => rfl
  | succ f =>
    unfold getGo
    rw [h]
    cases bb.indexOf pos with
    | none => rfl
    | some idx => rfl

theorem getGo_empty_leaf (f : ℕ) (nodes : List Node) (i : ℕ) (bb : IAabb) (pos : IVec3)
    (h : nodes[i]? = some (Node.leaf fun _ => none)) :
    getGo f nodes i bb pos = none := by
  cases f with
  | zero => rfl
  | succ f =>
    unfold getGo
    rw [h]
    cases bb.indexOf pos with
    | none => rfl
    | some idx => rfl

theorem getGo_fromAabb (f : ℕ) (nodes : List Node) (i : ℕ) (bb bb2 : IAabb) (pos : IVec3)
    (h : nodes[i]? = some (Node.fromAabb bb2)) :
    getGo f nodes i bb pos = none := by
  unfold Node.fromAabb at h
  split at h
  · exact getGo_empty_leaf f nodes i bb pos h
  · exact getGo_empty_branch f nodes i bb pos h

theorem isUnit_cubeBB_zero (org2 : IVec3) : (cubeBB org2 0).isUnit = true := by
  unfold IAabb.isUnit
  have h1 : (cubeBB org2 0).extents.maxElement = 1 := by
    simp [cubeBB, IVec3.maxElement]
  rw [h1]
  rfl

theorem isUnit_cubeBB_succ (org2 : IVec3) (n : ℕ) :
    (cubeBB org2 (n + 1)).isUnit = false := by
  unfold IAabb.isUnit
  have h1 : (cubeBB org2 (n + 1)).extents.maxElement = 2 ^ (n + 1) := by
    simp [cubeBB, IVec3.maxElement]
  rw [h1]
  have h2 : (2 : ℤ) ^ (n + 1) ≠ 1 := by
    have : (2 : ℤ) ≤ 2 ^ (n + 1) := by
      calc (2 : ℤ) = 2 ^ 1 := (pow_one 2).symm
      _ ≤ 2 ^ (n + 1) := pow_le_pow_right₀ (by omega) (by omega)
    omega
  exact decide_eq_false h2

theorem fromAabb_cubeBB_zero (org2 : IVec3) :
    Node.fromAabb (cubeBB org2 0) = Node.leaf (fun _ => none) := by
  unfold Node.fromAabb
  rw [isUnit_cubeBB_zero]
  rfl

theorem fromAabb_cubeBB_succ (org2 : IVec3) (n : ℕ) :
    Node.fromAabb (cubeBB org2 (n + 1)) = Node.branch (fun _ => none) := by
  unfold Node.fromAabb
  rw [isUnit_cubeBB_succ]
  rfl

/-- An empty node freshly created from a cube of extents `2^n` is a
well-formed (empty) subtree for that cube. -/
theorem WFN_fromAabb (n : ℕ) (nodes : List Node) (org2 : IVec3) (i : ℕ)
    (h : nodes[i]? = some (Node.fromAabb (cubeBB org2 n))) :
    WFN n nodes org2 i := by
  cases n with
  | zero =>
    rw [fromAabb_cubeBB_zero] at h
    exact ⟨fun _ => none, h⟩
  | succ n =>
    rw [fromAabb_cubeBB_succ] at h
    refine ⟨fun _ => none, h, ?_, ?_, ?_⟩
    · intro j k hk; cases hk
    · intro j k hk; cases hk
    · intro j j' k k' _ hk; cases hk

theorem footN_fromAabb (n : ℕ) (nodes : List Node) (org2 : IVec3) (i : ℕ)
    (h : nodes[i]? = some (Node.fromAabb (cubeBB org2 n))) :
    footN n nodes i = {i} := by
  cases n with
  | zero => rfl
  | succ n =>
    rw [fromAabb_cubeBB_succ] at h
    unfold footN
    rw [h]
    show insert i (Finset.univ.biUnion fun _ : Fin 8 => (∅ : Finset ℕ)) = {i}
    ext a
    simp

/-- At a unit cube, `index_of` is injective on accepted points. -/
theorem octIdx_inj_unit (org pos q : IVec3)
    (hp : inAcc (cubeBB org 0) pos) (hq : inAcc (cubeBB org 0) q) (hne : q ≠ pos) :
    octIdx (cubeBB org 0) q ≠ octIdx (cubeBB org 0) pos := by
  intro he
  apply hne
  have hv := congrArg Fin.val he
  unfold octIdx at hv
  rw [Fin.val_mk, Fin.val_mk] at hv
  unfold inAcc at hp hq
  simp only [cubeBB_origin, cubeBB_extents_x, cubeBB_extents_y, cubeBB_extents_z,
    pow_zero] at hp hq hv
  unfold bit01 at hv
  cases q with
  | mk qx qy qz =>
    cases pos with
    | mk px py pz =>
      simp only at hv hp hq ⊢
      split_ifs at hv <;> (simp only [IVec3.mk.injEq]; omega)

/-- An insert at a position the current box rejects fails immediately,
leaving the arena untouched. -/
theorem insertGo_fail (fuel : ℕ) (hfuel : 1 ≤ fuel) (nodes : List Node) (i : ℕ)
    (bb : IAabb) (pos : IVec3) (v : Voxel) (h : ¬ inAcc bb pos) :
    insertGo fuel nodes i bb pos v = (nodes, false) := by
  cases fuel with
  | zero => omega
  | succ f => simp only [insertGo, indexOf_eq_none_of_not_inAcc bb pos h]

/-- Main correctness of `insertGo` on well-formed subtrees: with enough
fuel it succeeds, mutates only the subtree footprint plus freshly appended
nodes, preserves well-formedness, makes `get` return the written voxel at
`pos`, and leaves `get` at every other position unchanged. -/
theorem insertGo_spec (n : ℕ) :
    ∀ (fuel : ℕ) (nodes : List Node) (i : ℕ) (org : IVec3) (pos : IVec3) (v : Voxel),
      n + 1 ≤ fuel →
      WFN n nodes org i →
      inAcc (cubeBB org n) pos →
      ∃ nodes2 : List Node,
        insertGo fuel nodes i (cubeBB org n) pos v = (nodes2, true) ∧
        nodes.length ≤ nodes2.length ∧
        (∀ a : ℕ, a < nodes.length → a ∉ footN n nodes i → nodes2[a]? = nodes[a]?) ∧
        WFN n nodes2 org i ∧
        (∀ a : ℕ, a ∈ footN n nodes2 i →
          a ∈ footN n nodes i ∨ (nodes.length ≤ a ∧ a < nodes2.length)) ∧
        (∀ f2 : ℕ, n + 1 ≤ f2 → getGo f2 nodes2 i (cubeBB org n) pos = some v) ∧
        (∀ (f2 : ℕ) (q : IVec3), q ≠ pos →
          getGo f2 nodes2 i (cubeBB org n) q = getGo f2 nodes i (cubeBB org n) q) := by
  induction n with
  | zero =>
    intro fuel nodes i org pos v hfuel hwf hacc
    obtain ⟨s, hs⟩ := hwf
    have hi : i < nodes.length := (List.getElem?_eq_some_iff.mp hs).1
    cases fuel with
    | zero => omega
    | succ f =>
      have hio : (cubeBB org 0).indexOf pos = some (octIdx (cubeBB org 0) pos) :=
        indexOf_eq_some_of_inAcc _ _ hacc
      refine ⟨nodes.set i (Node.leaf (Function.update s (octIdx (cubeBB org 0) pos) (some v))),
        ?_, ?_, ?_, ?_, ?_, ?_, ?_⟩
      · simp only [insertGo, hio, hs]
      · rw [List.length_set]
      · intro a ha hafoot
        have hai : a ≠ i := fun hc => hafoot (hc ▸ self_mem_footN 0 nodes i)
        rw [List.getElem?_set_ne (fun hc => hai hc.symm)]
      · exact ⟨_, List.getElem?_set_self hi⟩
      · intro a ha
        left
        have ha' : a = i := by simpa [footN] using ha
        rw [ha']
        exact self_mem_footN 0 nodes i
      · intro f2 hf2
        cases f2 with
        | zero => omega
        | succ f2 =>
          simp only [getGo, hio, List.getElem?_set_self hi, Function.update_same]
      · intro f2 q hneq
        cases f2 with
        | zero => rfl
        | succ f2 =>
          cases hq : (cubeBB org 0).indexOf q with
          | none => simp only [getGo, hq]
          | some idxq =>
            have hqa : inAcc (cubeBB org 0) q :=
              (indexOf_isSome_iff _ q).mp (by rw [hq]; rfl)
            have hqi : idxq = octIdx (cubeBB org 0) q := by
              have h2 := indexOf_eq_some_of_inAcc _ _ hqa
              rw [hq] at h2
              exact Option.some_inj.mp h2.symm |>.symm
            have hne2 : idxq ≠ octIdx (cubeBB org 0) pos := by
              rw [hqi]
              exact octIdx_inj_unit org pos q hacc hqa hneq
            simp only [getGo, hq, List.getElem?_set_self hi, hs,
              Function.update_noteq hne2]
  | succ n ih =>
    intro fuel nodes i org pos v hfuel hwf hacc
    obtain ⟨cs, hnode, hch, hni, hdisj⟩ := hwf
    have hi : i < nodes.length := (List.getElem?_eq_some_iff.mp hnode).1
    cases fuel with
    | zero => omega
    | succ f =>
      have hf : n + 1 ≤ f := by omega
      have hio : (cubeBB org (n + 1)).indexOf pos =
          some (octIdx (cubeBB org (n + 1)) pos) :=
        indexOf_eq_some_of_inAcc _ _ hacc
      set idx := octIdx (cubeBB org (n + 1)) pos with hidxdef
      have hoct := octant_cubeBB org n idx
      have hacc' : inAcc (cubeBB (childOrg org n idx) n) pos := inAcc_child org n pos hacc
      cases hcs : cs idx with
      | some k =>
        have hwfk := hch idx k hcs
        obtain ⟨nodes2, hrun, hlen, hagree, hwf2, hfoot2, hget, hframe⟩ :=
          ih f nodes k (childOrg org n idx) pos v hf hwfk hacc'
        have hinotk : i ∉ footN n nodes k := hni idx k hcs
        have hkfoot : footN n nodes k ⊆ footN (n + 1) nodes i := footN_child_subset hnode hcs
        have hnode2 : nodes2[i]? = some (Node.branch cs) := by
          rw [hagree i hi hinotk, hnode]
        have hsib : ∀ (j : Fin 8) (m : ℕ), j ≠ idx → cs j = some m →
            ∀ a ∈ footN n nodes m, nodes2[a]? = nodes[a]? := by
          intro j m hj hcsj a ha
          have haL : a < nodes.length := footN_mem_lt n nodes _ m (hch j m hcsj) a ha
          have hnotk : a ∉ footN n nodes k := fun hc =>
            (Finset.disjoint_left.mp (hdisj j idx m k hj hcsj hcs)) ha hc
          exact hagree a haL hnotk
        refine ⟨nodes2, ?_, ?_, ?_, ?_, ?_, ?_, ?_⟩
        · simp only [insertGo, hio, hnode, hcs, hoct]
          exact hrun
        · exact hlen
        · intro a ha hafoot
          exact hagree a ha (fun hc => hafoot (hkfoot hc))
        · refine ⟨cs, hnode2, ?_, ?_, ?_⟩
          · intro j m hcsj
            by_cases hj : j = idx
            · subst hj
              rw [hcs] at hcsj
              cases hcsj
              exact hwf2
            · exact WFN_congr n nodes nodes2 _ m (hch j m hcsj) (hsib j m hj hcsj)
          · intro j m hcsj
            by_cases hj : j = idx
            · subst hj
              rw [hcs] at hcsj
              cases hcsj
              intro hc
              rcases hfoot2 i hc with hin | ⟨hge, _⟩
              · exact hinotk hin
              · omega
            · rw [footN_congr n nodes nodes2 _ m (hch j m hcsj) (hsib j m hj hcsj)]
              exact hni j m hcsj
          · intro j j' m m' hjj hcsj hcsj'
            by_cases hj : j = idx
            · subst hj
              rw [hcs] at hcsj
              cases hcsj
              rw [footN_congr n nodes nodes2 _ m' (hch j' m' hcsj')
                (hsib j' m' (fun hc => hjj hc.symm) hcsj')]
              rw [Finset.disjoint_left]
              intro a ha hc
              rcases hfoot2 a ha with hin | ⟨hge, _⟩
              · exact (Finset.disjoint_left.mp (hdisj idx j' k m' hjj hcs hcsj')) hin hc
              · have := footN_mem_lt n nodes _ m' (hch j' m' hcsj') a hc
                omega
            · by_cases hj' : j' = idx
              · subst hj'
                rw [hcs] at hcsj'
                cases hcsj'
                rw [footN_congr n nodes nodes2 _ m (hch j m hcsj) (hsib j m hj hcsj)]
                rw [Finset.disjoint_left]
                intro a ha hc
                rcases hfoot2 a hc with hin | ⟨hge, _⟩
                · exact (Finset.disjoint_left.mp (hdisj j idx m k hjj hcsj hcs)) ha hin
                · have := footN_mem_lt n nodes _ m (hch j m hcsj) a ha
                  omega
              · rw [footN_congr n nodes nodes2 _ m (hch j m hcsj) (hsib j m hj hcsj),
                  footN_congr n nodes nodes2 _ m' (hch j' m' hcsj') (hsib j' m' hj' hcsj')]
                exact hdisj j j' m m' hjj hcsj hcsj'
        · intro a ha
          unfold footN at ha
          rw [hnode2] at ha
          rcases Finset.mem_insert.mp ha with rfl | hmem
          · left
            exact self_mem_footN _ nodes a
          · obtain ⟨j, _, haj⟩ := Finset.mem_biUnion.mp hmem
            cases hcsj : cs j with
            | none =>
              simp only [hcsj] at haj
              exact absurd haj (Finset.not_mem_empty a)
            | some m =>
              simp only [hcsj] at haj
              by_cases hj : j = idx
              · subst hj
                rw [hcs] at hcsj
                cases hcsj
                rcases hfoot2 a haj with hin | hfr
                · left; exact hkfoot hin
                · right; exact hfr
              · rw [footN_congr n nodes nodes2 _ m (hch j m hcsj) (hsib j m hj hcsj)] at haj
                left
                exact footN_child_subset hnode hcsj haj
        · intro f2 hf2
          cases f2 with
          | zero => omega
          | succ f2 =>
            simp only [getGo, hio, hnode2, hcs, hoct]
            exact hget f2 (by omega)
        · intro f2 q hneq
          cases f2 with
          | zero => rfl
          | succ f2 =>
            cases hq : (cubeBB org (n + 1)).indexOf q with
            | none => simp only [getGo, hq]
            | some idxq =>
              by_cases hji : idxq = idx
              · subst hji
                simp only [getGo, hq, hnode2, hnode, hcs, hoct]
                exact hframe f2 q hneq
              · cases hcsq : cs idxq with
                | none => simp only [getGo, hq, hnode2, hnode, hcsq]
                | some m =>
                  simp only [getGo, hq, hnode2, hnode, hcsq]
                  exact getGo_congr n nodes nodes2 _ m (hch idxq m hcsq)
                    (hsib idxq m hji hcsq) f2 _ q
      | none =>
        set nodesG := (nodes.set i
            (Node.branch (Function.update cs idx (some nodes.length)))) ++
          [Node.fromAabb (cubeBB (childOrg org n idx) n)] with hG
        have hGlen : nodesG.length = nodes.length + 1 := by
          rw [hG, List.length_append, List.length_set]
          rfl
        have hGagree : ∀ a, a < nodes.length → a ≠ i → nodesG[a]? = nodes[a]? := by
          intro a ha hai
          rw [hG, List.getElem?_append_left (by rw [List.length_set]; exact ha),
            List.getElem?_set_ne (fun hc => hai hc.symm)]
        have hGi : nodesG[i]? =
            some (Node.branch (Function.update cs idx (some nodes.length))) := by
          rw [hG, List.getElem?_append_left (by rw [List.length_set]; exact hi),
            List.getElem?_set_self hi]
        have hGnew : nodesG[nodes.length]? =
            some (Node.fromAabb (cubeBB (childOrg org n idx) n)) := by
          rw [hG, List.getElem?_append_right (by rw [List.length_set])]
          simp [List.length_set]
        have hwfG : WFN n nodesG (childOrg org n idx) nodes.length :=
          WFN_fromAabb n nodesG _ _ hGnew
        have hfootG : footN n nodesG nodes.length = {nodes.length} :=
          footN_fromAabb n nodesG _ _ hGnew
        obtain ⟨nodes2, hrun, hlen2, hagree2, hwf2, hfoot2, hget, hframe⟩ :=
          ih f nodesG nodes.length (childOrg org n idx) pos v hf hwfG hacc'
        have hagreeC : ∀ a, a < nodes.length → a ≠ i → nodes2[a]? = nodes[a]? := by
          intro a ha hai
          have h1 : nodes2[a]? = nodesG[a]? := by
            apply hagree2 a (by omega)
            rw [hfootG]
            simp only [Finset.mem_singleton]
            omega
          rw [h1, hGagree a ha hai]
        have hnode2i : nodes2[i]? =
            some (Node.branch (Function.update cs idx (some nodes.length))) := by
          have h1 : nodes2[i]? = nodesG[i]? := by
            apply hagree2 i (by omega)
            rw [hfootG]
            simp only [Finset.mem_singleton]
            omega
          rw [h1, hGi]
        have hsib : ∀ (j : Fin 8) (m : ℕ), cs j = some m →
            ∀ a ∈ footN n nodes m, nodes2[a]? = nodes[a]? := by
          intro j m hcsj a ha
          have haL : a < nodes.length := footN_mem_lt n nodes _ m (hch j m hcsj) a ha
          have hai : a ≠ i := fun hc => hni j m hcsj (hc ▸ ha)
          exact hagreeC a haL hai
        refine ⟨nodes2, ?_, ?_, ?_, ?_, ?_, ?_, ?_⟩
        · simp only [insertGo, hio, hnode, hcs, hoct]
          rw [← hG]
          exact hrun
        · rw [hGlen] at hlen2
          omega
        · intro a ha hafoot
          refine hagreeC a ha (fun hc => hafoot ?_)
          rw [hc]
          exact self_mem_footN _ nodes i
        · refine ⟨Function.update cs idx (some nodes.length), hnode2i, ?_, ?_, ?_⟩
          · intro j m hcsj
            by_cases hj : j = idx
            · subst hj
              rw [Function.update_same] at hcsj
              cases hcsj
              exact hwf2
            · rw [Function.update_noteq hj] at hcsj
              exact WFN_congr n nodes nodes2 _ m (hch j m hcsj) (hsib j m hcsj)
          · intro j m hcsj
            by_cases hj : j = idx
            · subst hj
              rw [Function.update_same] at hcsj
              cases hcsj
              intro hc
              rcases hfoot2 i hc with hin | ⟨hge, _⟩
              · rw [hfootG] at hin
                simp only [Finset.mem_singleton] at hin
                omega
              · rw [hGlen] at hge
                omega
            · rw [Function.update_noteq hj] at hcsj
              rw [footN_congr n nodes nodes2 _ m (hch j m hcsj) (hsib j m hcsj)]
              exact hni j m hcsj
          · intro j j' m m' hjj hcsj hcsj'
            by_cases hj : j = idx
            · subst hj
              rw [Function.update_same] at hcsj
              cases hcsj
              rw [Function.update_noteq (fun hc => hjj hc.symm)] at hcsj'
              rw [footN_congr n nodes nodes2 _ m' (hch j' m' hcsj') (hsib j' m' hcsj')]
              rw [Finset.disjoint_left]
              intro a ha hc
              have haL : a < nodes.length :=
                footN_mem_lt n nodes _ m' (hch j' m' hcsj') a hc
              rcases hfoot2 a ha with hin | ⟨hge, _⟩
              · rw [hfootG] at hin
                simp only [Finset.mem_singleton] at hin
                omega
              · rw [hGlen] at hge
                omega
            · by_cases hj' : j' = idx
              · subst hj'
                rw [Function.update_same] at hcsj'
                cases hcsj'
                rw [Function.update_noteq hj] at hcsj
                rw [footN_congr n nodes nodes2 _ m (hch j m hcsj) (hsib j m hcsj)]
                rw [Finset.disjoint_left]
                intro a ha hc
                have haL : a < nodes.length :=
                  footN_mem_lt n nodes _ m (hch j m hcsj) a ha
                rcases hfoot2 a hc with hin | ⟨hge, _⟩
                · rw [hfootG] at hin
                  simp only [Finset.mem_singleton] at hin
                  omega
                · rw [hGlen] at hge
                  omega
              · rw [Function.update_noteq hj] at hcsj
                rw [Function.update_noteq hj'] at hcsj'
                rw [footN_congr n nodes nodes2 _ m (hch j m hcsj) (hsib j m hcsj),
                  footN_congr n nodes nodes2 _ m' (hch j' m' hcsj') (hsib j' m' hcsj')]
                exact hdisj j j' m m' hjj hcsj hcsj'
        · intro a ha
          unfold footN at ha
          rw [hnode2i] at ha
          rcases Finset.mem_insert.mp ha with rfl | hmem
          · left
            exact self_mem_footN _ nodes a
          · obtain ⟨j, _, haj⟩ := Finset.mem_biUnion.mp hmem
            by_cases hj : j = idx
            · subst hj
              simp only [Function.update_same] at haj
              rcases hfoot2 a haj with hin | ⟨hge, hlt⟩
              · rw [hfootG] at hin
                simp only [Finset.mem_singleton] at hin
                right
                rw [hGlen] at hlen2
                exact ⟨by omega, by omega⟩
              · right
                rw [hGlen] at hge
                exact ⟨by omega, hlt⟩
            · simp only [Function.update_noteq hj] at haj
              cases hcsj : cs j with
              | none =>
                simp only [hcsj] at haj
                exact absurd haj (Finset.not_mem_empty a)
              | some m =>
                simp only [hcsj] at haj
                rw [footN_congr n nodes nodes2 _ m (hch j m hcsj)
                  (hsib j m hcsj)] at haj
                left
                exact footN_child_subset hnode hcsj haj
        · intro f2 hf2
          cases f2 with
          | zero => omega
          | succ f2 =>
            simp only [getGo, hio, hnode2i, Function.update_same, hoct]
            exact hget f2 (by omega)
        · intro f2 q hneq
          cases f2 with
          | zero => rfl
          | succ f2 =>
            cases hq : (cubeBB org (n + 1)).indexOf q with
            | none => simp only [getGo, hq]
            | some idxq =>
              by_cases hji : idxq = idx
              · subst hji
                simp only [getGo, hq, hnode2i, hnode, Function.update_same, hcs, hoct]
                rw [hframe f2 q hneq]
                exact getGo_fromAabb f2 nodesG nodes.length _ _ q hGnew
              · simp only [getGo, hq, hnode2i, hnode, Function.update_noteq hji]
                cases hcsq : cs idxq with
                | none => simp only [hcsq]
                | some m =>
                  simp only [hcsq]
                  exact getGo_congr n nodes nodes2 _ m (hch idxq m hcsq)
                    (hsib idxq m hcsq) f2 _ q

/-- Octree well-formedness: the box is a power-of-two cube (side at least
4, i.e. extents `2^n` with `n ≥ 1`, as guaranteed by `next_pow2`) and the
arena is a well-formed tree rooted at index 0. -/
def OWF (o : Octree) : Prop :=
  ∃ n : ℕ, 1 ≤ n ∧ o.bb = cubeBB o.bb.origin n ∧ WFN n o.nodes o.bb.origin 0

theorem toNat_two_pow (n : ℕ) : ((2 : ℤ) ^ n).toNat = 2 ^ n := by
  have h : ((2 : ℤ) ^ n) = ((2 ^ n : ℕ) : ℤ) := by push_cast; ring
  rw [h, Int.toNat_natCast]

theorem fuel_ge (n : ℕ) : n + 1 ≤ 2 ^ n + 1 := by
  have := Nat.lt_two_pow n
  omega

/-- `Octree::insert` on well-formed octrees: in-bounds inserts succeed,
preserve well-formedness and the box, write the voxel, and change no other
lookup; out-of-bounds inserts return the octree unchanged with `false`. -/
theorem octree_insert_spec (o : Octree) (h : OWF o) (pos : IVec3) (v : Voxel) :
    (inAcc o.bb pos →
      (o.insert pos v).2 = true ∧
      OWF (o.insert pos v).1 ∧
      (o.insert pos v).1.bb = o.bb ∧
      (o.insert pos v).1.get pos = some v ∧
      (∀ q : IVec3, q ≠ pos → (o.insert pos v).1.get q = o.get q)) ∧
    (¬ inAcc o.bb pos → o.insert pos v = (o, false)) := by
  obtain ⟨n, hn1, hbb, hwf⟩ := h
  have hfuel : o.bb.extents.x.toNat + 1 = 2 ^ n + 1 := by
    rw [hbb]
    simp only [cubeBB_extents_x]
    rw [toNat_two_pow]
  constructor
  · intro hacc
    have hacc' : inAcc (cubeBB o.bb.origin n) pos := by rw [← hbb]; exact hacc
    obtain ⟨nodes2, hrun, hlen, hagree, hwf2, hfoot2, hget, hframe⟩ :=
      insertGo_spec n (o.bb.extents.x.toNat + 1) o.nodes 0 o.bb.origin pos v
        (by rw [hfuel]; exact fuel_ge n) hwf hacc'
    have hins : o.insert pos v = ({ bb := o.bb, nodes := nodes2 }, true) := by
      unfold Octree.insert
      rw [show insertGo (o.bb.extents.x.toNat + 1) o.nodes 0 o.bb pos v = (nodes2, true) by
        rw [hbb] at hrun ⊢
        exact hrun]
    refine ⟨by rw [hins], ?_, by rw [hins], ?_, ?_⟩
    · rw [hins]
      exact ⟨n, hn1, hbb, by rw [hbb] at hwf2 ⊢; exact hwf2⟩
    · rw [hins]
      unfold Octree.get
      simp only
      rw [hbb] at hfuel ⊢
      rw [hfuel]
      exact hget (2 ^ n + 1) (fuel_ge n)
    · intro q hq
      rw [hins]
      unfold Octree.get
      simp only
      rw [hbb] at hfuel ⊢
      rw [hfuel]
      exact hframe (2 ^ n + 1) q hq
  · intro hacc
    unfold Octree.insert
    rw [insertGo_fail (o.bb.extents.x.toNat + 1) (by omega) o.nodes 0 o.bb pos v hacc]

/-- C3: insert/get round trip with frame on well-formed octrees (every
octree the module builds is well-formed: `Octree::new` pads to a
power-of-two cube and `insert` preserves the invariant). -/
theorem claim_C3_insert_get_roundtrip (o : Octree) (howf : OWF o) (p q : IVec3)
    (v w : Voxel) (hqp : q ≠ p) :
    ((o.insert p v).2 = true → (o.insert p v).1.get p = some v) ∧
    ((o.insert p v).2 = true →
      (((o.insert p v).1.insert p w).2 = true ∧
        ((o.insert p v).1.insert p w).1.get p = some w)) ∧
    ((o.insert q v).2 = true → (o.insert q v).1.get p = o.get p) := by
  have hspec := octree_insert_spec o howf p v
  have haccp : (o.insert p v).2 = true → inAcc o.bb p := by
    intro hs
    by_contra hacc
    rw [hspec.2 hacc] at hs
    cases hs
  refine ⟨?_, ?_, ?_⟩
  · intro hs
    exact (hspec.1 (haccp hs)).2.2.2.1
  · intro hs
    obtain ⟨_, howf1, hbb1, _, _⟩ := hspec.1 (haccp hs)
    have hacc1 : inAcc (o.insert p v).1.bb p := by rw [hbb1]; exact haccp hs
    have hspec1 := octree_insert_spec (o.insert p v).1 howf1 p w
    exact ⟨(hspec1.1 hacc1).1, (hspec1.1 hacc1).2.2.2.1⟩
  · intro hs
    have hspecq := octree_insert_spec o howf q v
    have haccq : inAcc o.bb q := by
      by_contra hacc
      rw [hspecq.2 hacc] at hs
      cases hs
    exact (hspecq.1 haccq).2.2.2.2 p (fun hc => hqp hc.symm)

/-- A fresh (empty) single-branch arena is well-formed at any depth. -/
theorem WFN_single_branch (n : ℕ) (org : IVec3) :
    WFN (n + 1) [Node.branch (fun _ => none)] org 0 := by
  refine ⟨fun _ => none, rfl, ?_, ?_, ?_⟩
  · intro j k hk; cases hk
  · intro j k hk; cases hk
  · intro j j' k k' _ hk _; cases hk

theorem OWF_new_unit :
    OWF (Octree.new (IAabb.mk (IVec3.mk 0 0 0) (IVec3.mk 1 1 1))) := by
  refine ⟨1, le_refl 1, by decide, ?_⟩
  have hnodes : (Octree.new (IAabb.mk (IVec3.mk 0 0 0) (IVec3.mk 1 1 1))).nodes =
      [Node.branch (fun _ => none)] := by decide
  rw [hnodes]
  exact WFN_single_branch 0 _

/-- Witness for C3 on a freshly built unit octree. -/
theorem claim_C3_insert_get_roundtrip_witness :
    IVec3.mk 0 0 0 ≠ IVec3.mk 1 1 1 ∧
    (((Octree.new (IAabb.mk (IVec3.mk 0 0 0) (IVec3.mk 1 1 1))).insert (IVec3.mk 1 1 1)
        (Voxel.mk (IVec3.mk 5 5 5))).2 = true →
      ((Octree.new (IAabb.mk (IVec3.mk 0 0 0) (IVec3.mk 1 1 1))).insert (IVec3.mk 1 1 1)
        (Voxel.mk (IVec3.mk 5 5 5))).1.get (IVec3.mk 1 1 1) =
        some (Voxel.mk (IVec3.mk 5 5 5))) :=
  ⟨by decide,
    (claim_C3_insert_get_roundtrip
      (Octree.new (IAabb.mk (IVec3.mk 0 0 0) (IVec3.mk 1 1 1))) OWF_new_unit
      (IVec3.mk 1 1 1) (IVec3.mk 0 0 0) (Voxel.mk (IVec3.mk 5 5 5))
      (Voxel.mk (IVec3.mk 7 7 7)) (by decide)).1⟩

/-- C9: an out-of-bounds insert (the only way `insert` returns `false` on a
well-formed octree) leaves the octree completely unchanged: same bounding
box and an identical node arena. -/
theorem claim_C9_insert_oob_unchanged (o : Octree) (howf : OWF o) (pos : IVec3)
    (v : Voxel) (hfail : (o.insert pos v).2 = false) :
    (o.insert pos v).1 = o := by
  have hspec := octree_insert_spec o howf pos v
  by_cases hacc : inAcc o.bb pos
  · rw [(hspec.1 hacc).1] at hfail
    cases hfail
  · rw [hspec.2 hacc]

/-- Witness for C9: inserting far outside the padded cube fails and leaves
the octree unchanged. -/
theorem claim_C9_insert_oob_unchanged_witness :
    (((Octree.new (IAabb.mk (IVec3.mk 0 0 0) (IVec3.mk 1 1 1))).insert (IVec3.mk 9 9 9)
        (Voxel.mk (IVec3.mk 5 5 5))).2 = false) ∧
    ((Octree.new (IAabb.mk (IVec3.mk 0 0 0) (IVec3.mk 1 1 1))).insert (IVec3.mk 9 9 9)
        (Voxel.mk (IVec3.mk 5 5 5))).1 =
      Octree.new (IAabb.mk (IVec3.mk 0 0 0) (IVec3.mk 1 1 1)) :=
  ⟨by decide,
    claim_C9_insert_oob_unchanged (Octree.new (IAabb.mk (IVec3.mk 0 0 0) (IVec3.mk 1 1 1)))
      OWF_new_unit (IVec3.mk 9 9 9) (Voxel.mk (IVec3.mk 5 5 5)) (by decide)⟩

section NextPow2

/-- Doubling step of the bit smear: OR-ing with a right shift by `w`
doubles the window of source bits visible at each position. -/
theorem orShift_window (m s w : ℕ)
    (hP : ∀ j, s.testBit j = true ↔ ∃ d, d < w ∧ m.testBit (j + d) = true) :
    ∀ j, (s ||| s >>> w).testBit j = true ↔
      ∃ d, d < 2 * w ∧ m.testBit (j + d) = true := by
  intro j
  rw [Nat.testBit_or, Nat.testBit_shiftRight, Bool.or_eq_true, hP j, hP (w + j)]
  constructor
  · rintro (⟨d, hd, hbit⟩ | ⟨d, hd, hbit⟩)
    · exact ⟨d, by omega, hbit⟩
    · refine ⟨w + d, by omega, ?_⟩
      have he : j + (w + d) = w + j + d := by omega
      rw [he]
      exact hbit
  · rintro ⟨d, hd, hbit⟩
    by_cases hc : d < w
    · exact Or.inl ⟨d, hc, hbit⟩
    · refine Or.inr ⟨d - w, by omega, ?_⟩
      have he : w + j + (d - w) = j + d := by omega
      rw [he]
      exact hbit

theorem u32smear_window (m : ℕ) :
    ∀ j, (IAabb.u32smear m).testBit j = true ↔
      ∃ d, d < 32 ∧ m.testBit (j + d) = true := by
  have h1 : ∀ j, m.testBit j = true ↔ ∃ d, d < 1 ∧ m.testBit (j + d) = true := by
    intro j
    constructor
    · intro h
      exact ⟨0, by omega, by simpa using h⟩
    · rintro ⟨d, hd, h⟩
      have hd0 : d = 0 := by omega
      subst hd0
      simpa using h
  have h2 := orShift_window m m 1 h1
  have h4 := orShift_window m _ 2 h2
  have h8 := orShift_window m _ 4 h4
  have h16 := orShift_window m _ 8 h8
  have h32 := orShift_window m _ 16 h16
  intro j
  exact h32 j

/-- The bit smear of `next_pow2` fills all bits below the leading bit:
for `1 ≤ m < 2^31` the result is `2^(log2 m + 1) − 1`, so adding one gives
the next power of two strictly above `m`. -/
theorem u32smear_spec (m : ℕ) (hm1 : 1 ≤ m) (hm2 : m < 2 ^ 31) :
    IAabb.u32smear m = 2 ^ (Nat.log2 m + 1) - 1 := by
  have hmlt : m < 2 ^ (Nat.log2 m + 1) := Nat.lt_log2_self
  have hmge : 2 ^ Nat.log2 m ≤ m := Nat.log2_self_le (by omega)
  have hLle : Nat.log2 m + 1 ≤ 31 := by
    have := (Nat.log2_lt (n := m) (by omega) (k := 31)).mpr hm2
    omega
  apply Nat.eq_of_testBit_eq
  intro j
  rw [Nat.testBit_two_pow_sub_one]
  by_cases hj : j < Nat.log2 m + 1
  · have hbit : m.testBit (Nat.log2 m) = true := by
      have hdiv : m / 2 ^ Nat.log2 m = 1 := by
        apply Nat.div_eq_of_lt_le
        · simpa using hmge
        · have h2 : (1 + 1) * 2 ^ Nat.log2 m = 2 ^ (Nat.log2 m + 1) := by
            rw [Nat.pow_succ]
            ring
          rw [h2]
          exact hmlt
      rw [Nat.testBit, Nat.shiftRight_eq_div_pow, hdiv]
      rfl
    have hex : ∃ d, d < 32 ∧ m.testBit (j + d) = true := by
      refine ⟨Nat.log2 m - j, by omega, ?_⟩
      have he : j + (Nat.log2 m - j) = Nat.log2 m := by omega
      rw [he]
      exact hbit
    rw [(u32smear_window m j).mpr hex]
    exact (decide_eq_true hj).symm
  · have hfalse : (IAabb.u32smear m).testBit j = false := by
      cases hsb : (IAabb.u32smear m).testBit j
      · rfl
      · obtain ⟨d, _, hb⟩ := (u32smear_window m j).mp hsb
        have hge : Nat.log2 m + 1 ≤ j + d := by omega
        rw [Nat.testBit_lt_two_pow
          (lt_of_lt_of_le hmlt (Nat.pow_le_pow_right (by omega) hge))] at hb
        cases hb
    rw [hfalse]
    exact (decide_eq_false hj).symm

/-- `next_pow2` on a box with positive extents below `2^30` yields a cube
with extents the next power of two strictly greater than the largest
extent. -/
theorem nextPow2_spec (bb : IAabb) (h1 : 1 ≤ bb.extents.maxElement)
    (h2 : bb.extents.maxElement < 2 ^ 30) :
    ∃ n : ℕ, 1 ≤ n ∧ bb.nextPow2 = cubeBB bb.origin n ∧
      bb.extents.maxElement < 2 ^ n := by
  set m := bb.extents.maxElement.toNat with hm
  have hm1 : 1 ≤ m := by omega
  have hm2 : m < 2 ^ 30 := by omega
  have hsm := u32smear_spec m hm1 (by omega)
  have hL31 : Nat.log2 m + 1 ≤ 30 := by
    have := (Nat.log2_lt (n := m) (by omega) (k := 30)).mpr hm2
    omega
  have hpow : IAabb.u32smear m + 1 = 2 ^ (Nat.log2 m + 1) := by
    have hple : 1 ≤ 2 ^ (Nat.log2 m + 1) := Nat.one_le_two_pow
    omega
  refine ⟨Nat.log2 m + 1, by omega, ?_, ?_⟩
  · have hval : bb.nextPow2 =
        { origin := bb.origin,
          extents := IVec3.mk (IAabb.i32ofU32 (IAabb.u32smear m + 1))
            (IAabb.i32ofU32 (IAabb.u32smear m + 1))
            (IAabb.i32ofU32 (IAabb.u32smear m + 1)) } := rfl
    rw [hval, hpow]
    unfold IAabb.i32ofU32
    have hlt32 : 2 ^ (Nat.log2 m + 1) < 2 ^ 32 := by
      exact Nat.pow_lt_pow_right (by omega) (by omega)
    have hlt31 : 2 ^ (Nat.log2 m + 1) % 2 ^ 32 < 2 ^ 31 := by
      rw [Nat.mod_eq_of_lt hlt32]
      exact Nat.pow_lt_pow_right (by omega) (by omega)
    rw [if_pos hlt31]
    unfold cubeBB
    rw [Nat.mod_eq_of_lt hlt32]
    have hc : ((2 ^ (Nat.log2 m + 1) : ℕ) : ℤ) = (2 : ℤ) ^ (Nat.log2 m + 1) := by
      push_cast
      ring
    rw [hc]
  · have : m < 2 ^ (Nat.log2 m + 1) := Nat.lt_log2_self
    have hcast : bb.extents.maxElement = (m : ℤ) := by omega
    rw [hcast]
    have : ((m : ℤ)) < ((2 ^ (Nat.log2 m + 1) : ℕ) : ℤ) := by
      exact_mod_cast this
    calc ((m : ℤ)) < ((2 ^ (Nat.log2 m + 1) : ℕ) : ℤ) := this
    _ = (2 : ℤ) ^ (Nat.log2 m + 1) := by push_cast; ring

end NextPow2

/-- Variant of the insert spec that keeps the cube depth `n` explicit (used
by the `from_voxels` fold, which threads a fixed padded cube). -/
theorem octree_insert_spec_n (o : Octree) (n : ℕ) (org : IVec3)
    (hbb : o.bb = cubeBB org n) (hwf : WFN n o.nodes org 0)
    (pos : IVec3) (v : Voxel) (hacc : inAcc o.bb pos) :
    (o.insert pos v).2 = true ∧
    (o.insert pos v).1.bb = o.bb ∧
    WFN n (o.insert pos v).1.nodes org 0 ∧
    (o.insert pos v).1.get pos = some v ∧
    (∀ q : IVec3, q ≠ pos → (o.insert pos v).1.get q = o.get q) := by
  have hfuel : o.bb.extents.x.toNat + 1 = 2 ^ n + 1 := by
    rw [hbb]
    simp only [cubeBB_extents_x]
    rw [toNat_two_pow]
  have hacc' : inAcc (cubeBB org n) pos := by rw [← hbb]; exact hacc
  obtain ⟨nodes2, hrun, hlen, hagree, hwf2, hfoot2, hget, hframe⟩ :=
    insertGo_spec n (o.bb.extents.x.toNat + 1) o.nodes 0 org pos v
      (by rw [hfuel]; exact fuel_ge n) hwf hacc'
  have hins : o.insert pos v = ({ bb := o.bb, nodes := nodes2 }, true) := by
    unfold Octree.insert
    rw [show insertGo (o.bb.extents.x.toNat + 1) o.nodes 0 o.bb pos v = (nodes2, true) by
      rw [hbb] at hrun ⊢
      exact hrun]
  refine ⟨by rw [hins], by rw [hins], by rw [hins]; exact hwf2, ?_, ?_⟩
  · rw [hins]
    unfold Octree.get
    simp only
    rw [hbb] at hfuel ⊢
    rw [hfuel]
    exact hget (2 ^ n + 1) (fuel_ge n)
  · intro q hq
    rw [hins]
    unfold Octree.get
    simp only
    rw [hbb] at hfuel ⊢
    rw [hfuel]
    exact hframe (2 ^ n + 1) q hq

/-- Invariant of the `from_voxels` fold: every processed point reads back
as its generated voxel, everything else is untouched. -/
theorem foldl_set_spec (gen : IVec3 → Option Voxel) (n : ℕ) (org : IVec3) :
    ∀ (l : List IVec3) (o : Octree) (f : IVec3 → Option Voxel),
      o.bb = cubeBB org n →
      WFN n o.nodes org 0 →
      (∀ p ∈ l, inAcc (cubeBB org n) p) →
      (∀ q, o.get q = f q) →
      (∀ p ∈ l, f p = none ∨ f p = gen p) →
      ∃ o2 : Octree,
        l.foldl (fun acc pos => acc.bind fun o3 =>
          let r := o3.set pos (gen pos)
          if r.2 then some r.1 else none) (some o) = some o2 ∧
        o2.bb = cubeBB org n ∧ WFN n o2.nodes org 0 ∧
        (∀ q, o2.get q = if q ∈ l then gen q else f q) := by
  intro l
  induction l with
  | nil =>
    intro o f hbb hwf _ hget _
    refine ⟨o, rfl, hbb, hwf, fun q => ?_⟩
    rw [hget q]
    simp
  | cons p t ih =>
    intro o f hbb hwf hacc hget hfgen
    rw [List.foldl_cons]
    cases hg : gen p with
    | none =>
      have hstep : ((some o).bind fun o3 =>
          let r := o3.set p none
          if r.2 then some r.1 else none) = some o := by
        rw [Option.some_bind]
        rfl
      rw [hstep]
      have hfp : f p = none := by
        rcases hfgen p (List.mem_cons_self p t) with h | h
        · exact h
        · rw [h, hg]
      obtain ⟨o2, hfold, hbb2, hwf2, hget2⟩ := ih o (fun q => if q = p then gen p else f q)
        hbb hwf (fun p' hp' => hacc p' (List.mem_cons_of_mem p hp'))
        (fun q => by
          show o.get q = if q = p then gen p else f q
          by_cases hqp : q = p
          · rw [if_pos hqp, hg, hget q, hqp, hfp]
          · rw [if_neg hqp, hget q])
        (fun p' hp' => by
          show (if p' = p then gen p else f p') = none ∨
            (if p' = p then gen p else f p') = gen p'
          by_cases hqp : p' = p
          · right; rw [if_pos hqp, hqp]
          · rw [if_neg hqp]; exact Or.imp_left id (hfgen p' (List.mem_cons_of_mem p hp')))
      refine ⟨o2, hfold, hbb2, hwf2, fun q => ?_⟩
      rw [hget2 q]
      by_cases hqt : q ∈ t
      · rw [if_pos hqt, if_pos (List.mem_cons_of_mem p hqt)]
      · rw [if_neg hqt]
        by_cases hqp : q = p
        · rw [if_pos hqp, if_pos (by rw [hqp]; exact List.mem_cons_self p t), hqp]
        · rw [if_neg hqp, if_neg (by
            intro hc
            rcases List.mem_cons.mp hc with hc | hc
            · exact hqp hc
            · exact hqt hc)]
    | some v =>
      have haccp : inAcc o.bb p := by
        rw [hbb]
        exact hacc p (List.mem_cons_self p t)
      obtain ⟨hsucc, hbb1, hwf1, hgetp, hframe⟩ :=
        octree_insert_spec_n o n org hbb hwf p v haccp
      have hstep : ((some o).bind fun o3 =>
          let r := o3.set p (some v)
          if r.2 then some r.1 else none) = some (o.insert p v).1 := by
        rw [Option.some_bind]
        show (if (o.insert p v).2 then some (o.insert p v).1 else none) = _
        rw [hsucc]
        rfl
      rw [hstep]
      obtain ⟨o2, hfold, hbb2, hwf2, hget2⟩ := ih (o.insert p v).1
        (fun q => if q = p then gen p else f q)
        (hbb1.trans hbb) hwf1 (fun p' hp' => hacc p' (List.mem_cons_of_mem p hp'))
        (fun q => by
          show (o.insert p v).1.get q = if q = p then gen p else f q
          by_cases hqp : q = p
          · rw [if_pos hqp, hg, hqp, hgetp]
          · rw [if_neg hqp, hframe q hqp, hget q])
        (fun p' hp' => by
          show (if p' = p then gen p else f p') = none ∨
            (if p' = p then gen p else f p') = gen p'
          by_cases hqp : p' = p
          · right; rw [if_pos hqp, hqp]
          · rw [if_neg hqp]; exact Or.imp_left id (hfgen p' (List.mem_cons_of_mem p hp')))
      refine ⟨o2, hfold, hbb2, hwf2, fun q => ?_⟩
      rw [hget2 q]
      by_cases hqt : q ∈ t
      · rw [if_pos hqt, if_pos (List.mem_cons_of_mem p hqt)]
      · rw [if_neg hqt]
        by_cases hqp : q = p
        · rw [if_pos hqp, if_pos (by rw [hqp]; exact List.mem_cons_self p t), hqp]
        · rw [if_neg hqp, if_neg (by
            intro hc
            rcases List.mem_cons.mp hc with hc | hc
            · exact hqp hc
            · exact hqt hc)]

/-- C2 (amended): for every generator and every AABB with strictly
positive extents all below `2^30`, `Octree::from_voxels` succeeds (the
"voxel was out of bounds" assertion never fires) and afterwards every
lattice point of `bb.iter()` reads back as the generated voxel. -/
theorem claim_C2_fromVoxels_correct (gen : IVec3 → Option Voxel) (bb : IAabb)
    (hex : 0 < bb.extents.x) (hey : 0 < bb.extents.y) (hez : 0 < bb.extents.z)
    (hbound : bb.extents.maxElement < 2 ^ 30) :
    ∃ o : Octree, Octree.fromVoxelsChecked gen bb = some o ∧
      ∀ p ∈ bb.iterList, o.get p = gen p := by
  have hxle : bb.extents.x ≤ bb.extents.maxElement := le_max_left _ _
  have hyle : bb.extents.y ≤ bb.extents.maxElement :=
    le_trans (le_max_left _ _) (le_max_right _ _)
  have hzle : bb.extents.z ≤ bb.extents.maxElement :=
    le_trans (le_max_right _ _) (le_max_right _ _)
  have hmax1 : 1 ≤ bb.extents.maxElement := le_trans hex hxle
  obtain ⟨n, hn1, hnew, hlt⟩ := nextPow2_spec bb hmax1 hbound
  have hobb : (Octree.new bb).bb = cubeBB bb.origin n := hnew
  have hnodes : (Octree.new bb).nodes = [Node.fromAabb (cubeBB bb.origin n)] := by
    show [Node.fromAabb bb.nextPow2] = _
    rw [hnew]
  obtain ⟨k, rfl⟩ : ∃ k, n = k + 1 := ⟨n - 1, by omega⟩
  have hwf0 : WFN (k + 1) (Octree.new bb).nodes bb.origin 0 := by
    rw [hnodes, fromAabb_cubeBB_succ]
    exact WFN_single_branch k bb.origin
  have hget0 : ∀ q, (Octree.new bb).get q = none := by
    intro q
    unfold Octree.get
    apply getGo_empty_branch
    rw [hnodes, fromAabb_cubeBB_succ]
    rfl
  have hiter : ∀ p ∈ bb.iterList, inAcc (cubeBB bb.origin (k + 1)) p := by
    intro p hp
    have hm := mem_iterList.mp hp
    unfold inAcc
    simp only [cubeBB_origin, cubeBB_extents_x, cubeBB_extents_y, cubeBB_extents_z]
    omega
  obtain ⟨o2, hfold, _, _, hget2⟩ :=
    foldl_set_spec gen (k + 1) bb.origin bb.iterList (Octree.new bb) (fun _ => none)
      hobb hwf0 hiter hget0 (fun p _ => Or.inl rfl)
  refine ⟨o2, hfold, fun p hp => ?_⟩
  rw [hget2 p, if_pos hp]

theorem intRange_cons (a b : ℤ) (h : a < b) : intRange a b = a :: intRange (a + 1) b := by
  unfold intRange
  have hn : (b - a).toNat = (b - (a + 1)).toNat + 1 := by omega
  rw [hn, List.range_succ_eq_map]
  rw [List.map_cons, List.map_map]
  congr 1
  · simp
  · apply List.map_congr_left
    intro i _
    show a + ((i + 1 : ℕ) : ℤ) = a + 1 + (i : ℤ)
    push_cast
    ring

theorem foldl_step_none (gen : IVec3 → Option Voxel) (l : List IVec3) :
    l.foldl (fun acc pos => acc.bind fun o3 =>
      let r := o3.set pos (gen pos)
      if r.2 then some r.1 else none) (none : Option Octree) = none := by
  induction l with
  | nil => rfl
  | cons p t ih =>
    rw [List.foldl_cons]
    exact ih

theorem foldl_step_head_none (gen : IVec3 → Option Voxel) (p : IVec3) (t : List IVec3)
    (o : Octree) (h : (o.set p (gen p)).2 = false) :
    (p :: t).foldl (fun acc pos => acc.bind fun o3 =>
      let r := o3.set pos (gen pos)
      if r.2 then some r.1 else none) (some o) = none := by
  rw [List.foldl_cons]
  have h1 : ((some o).bind fun o3 =>
      let r := o3.set p (gen p)
      if r.2 then some r.1 else none) = none := by
    show (if (o.set p (gen p)).2 = true then some (o.set p (gen p)).1 else none) = none
    rw [h]
    simp
  rw [h1]
  exact foldl_step_none gen t

/-- C2 counterexample: with extents `2^30` (a legal positive `i32`
extent), `next_pow2` computes `2^31`, whose `u32 → i32` cast wraps to
`-2^31`; the very first insert of `from_voxels` then fails its bounds
check, so the build does not succeed (the assertion fires). -/
theorem claim_C2_counterexample :
    Octree.fromVoxelsChecked (fun _ => some (Voxel.mk (IVec3.mk 0 0 0)))
      (IAabb.mk (IVec3.mk 0 0 0) (IVec3.mk (2 ^ 30) (2 ^ 30) (2 ^ 30))) = none := by
  have hhead := iterList_getElem
    (IAabb.mk (IVec3.mk 0 0 0) (IVec3.mk (2 ^ 30) (2 ^ 30) (2 ^ 30))) 0 0 0
    (by decide) (by decide) (by decide)
  simp only [Nat.mul_zero, Nat.add_zero, Nat.zero_add, Nat.cast_zero] at hhead
  obtain ⟨t, ht⟩ : ∃ t,
      (IAabb.mk (IVec3.mk 0 0 0) (IVec3.mk (2 ^ 30) (2 ^ 30) (2 ^ 30))).iterList =
      ((IAabb.mk (IVec3.mk 0 0 0) (IVec3.mk (2 ^ 30) (2 ^ 30) (2 ^ 30))).min +
        IVec3.mk 0 0 0) :: t := by
    cases hl : (IAabb.mk (IVec3.mk 0 0 0)
        (IVec3.mk (2 ^ 30) (2 ^ 30) (2 ^ 30))).iterList with
    | nil =>
      rw [hl] at hhead
      simp at hhead
    | cons a s =>
      rw [hl] at hhead
      simp only [List.getElem?_cons_zero, Option.some.injEq] at hhead
      exact ⟨s, by rw [hhead]⟩
  unfold Octree.fromVoxelsChecked
  rw [ht]
  exact foldl_step_head_none _ _ t _ (by decide)

/-- Witness for C2 (amended) on the unit box with a one-voxel generator. -/
theorem claim_C2_fromVoxels_correct_witness :
    (0 : ℤ) < 1 ∧
    ∃ o : Octree,
      Octree.fromVoxelsChecked
        (fun p => if p = IVec3.mk 0 0 0 then some (Voxel.mk (IVec3.mk 1 2 3)) else none)
        (IAabb.mk (IVec3.mk 0 0 0) (IVec3.mk 1 1 1)) = some o ∧
      ∀ p ∈ (IAabb.mk (IVec3.mk 0 0 0) (IVec3.mk 1 1 1)).iterList,
        o.get p = (fun p => if p = IVec3.mk 0 0 0 then some (Voxel.mk (IVec3.mk 1 2 3))
          else none) p :=
  ⟨by decide,
    claim_C2_fromVoxels_correct
      (fun p => if p = IVec3.mk 0 0 0 then some (Voxel.mk (IVec3.mk 1 2 3)) else none)
      (IAabb.mk (IVec3.mk 0 0 0) (IVec3.mk 1 1 1))
      (by decide) (by decide) (by decide) (by decide)⟩

/-! ## Exact rationals with kernel-computable arithmetic

`Q` is an exact rational: integer numerator over positive natural
denominator, kept gcd-normalized by the smart constructor `mkQ`, so that
structural equality is value equality for every value built by the
operations below.  (Mathlib's `ℚ` is not used here because its
arithmetic does not reduce under `decide`.) -/

structure Q where
  n : ℤ
  d : ℕ
deriving DecidableEq, Repr

/-- Normalizing constructor: sign into the numerator, divide by the gcd.
`d = 0` never occurs in this development (divisions are guarded). -/
def mkQ (n d : ℤ) : Q :=
  if d = 0 then ⟨0, 1⟩
  else
    (fun (s : ℤ) (ad : ℕ) =>
      (fun (g : ℕ) => ⟨s / (g : ℤ), ad / g⟩ : ℕ → Q) (Nat.gcd s.natAbs ad))
    (if d < 0 then -n else n) d.natAbs

instance (k : ℕ) : OfNat Q k := ⟨⟨(k : ℤ), 1⟩⟩

def Q.add (a b : Q) : Q := mkQ (a.n * b.d + b.n * a.d) ((a.d : ℤ) * b.d)

def Q.sub (a b : Q) : Q := mkQ (a.n * b.d - b.n * a.d) ((a.d : ℤ) * b.d)

def Q.mul (a b : Q) : Q := mkQ (a.n * b.n) ((a.d : ℤ) * b.d)

/-- Exact division; callers guard against `b = 0`. -/
def Q.div (a b : Q) : Q := mkQ (a.n * b.d) ((a.d : ℤ) * b.n)

def Q.neg (a : Q) : Q := ⟨-a.n, a.d⟩

def Q.qabs (a : Q) : Q := ⟨|a.n|, a.d⟩

def Q.blt (a b : Q) : Bool := decide (a.n * b.d < b.n * a.d)

def Q.ble (a b : Q) : Bool := decide (a.n * b.d ≤ b.n * a.d)

def Q.qfloor (a : Q) : ℤ := Int.fdiv a.n a.d

def Q.qceil (a : Q) : ℤ := -Int.fdiv (-a.n) a.d

def Q.ofInt (z : ℤ) : Q := ⟨z, 1⟩

/-- Newton iteration for the natural square root (fuelled). -/
def sqrtIter : ℕ → ℕ → ℕ → ℕ
  | 0, _, g => g
  | fuel + 1, n, g => if (g + n / g) / 2 < g then sqrtIter fuel n ((g + n / g) / 2) else g

def natSqrt (n : ℕ) : ℕ := if n = 0 then 0 else sqrtIter n n n

/-- Square root: exact whenever numerator and denominator are perfect
squares (the only case evaluated in the theorems below); otherwise a
computable rounding, standing in for the rounding `f32::sqrt`
performs. -/
def Q.sqrtA (a : Q) : Q := mkQ ((natSqrt a.n.toNat : ℤ)) ((natSqrt a.d : ℤ))

/-! ## Extended-float model

`f32` values are modelled by `F`: NaN, a signed infinity, or an exact
rational.  Finite arithmetic is exact (no rounding); every concrete
evaluation below stays within small rationals, and square roots are
only ever taken of perfect squares, where `Q.sqrtA` is exact.  There is
no negative zero: `F.fin 0` behaves as `+0.0`.  Decimal float literals
of the source (`0.01`, `0.0001`) are modelled by their decimal value.
NaN follows Rust semantics: it propagates through arithmetic, every
ordered comparison with it is `false`, scalar `f32::max`/`min` ignore
it, the SSE `max/min` used by `glam`'s `Vec3A` return their second
operand when either operand is NaN, and `as i32` saturates with NaN
mapped to `0`. -/

inductive F where
  | nan : F
  | inf : Bool → F
  | fin : Q → F
deriving DecidableEq, Repr

def F.isNan : F → Bool
  | nan => true
  | _ => false

def F.add : F → F → F
  | nan, _ => nan
  | _, nan => nan
  | inf s, inf t => if s = t then inf s else nan
  | inf s, fin _ => inf s
  | fin _, inf t => inf t
  | fin a, fin b => fin (a.add b)

def F.sub : F → F → F
  | nan, _ => nan
  | _, nan => nan
  | inf s, inf t => if s = t then nan else inf s
  | inf s, fin _ => inf s
  | fin _, inf t => inf (!t)
  | fin a, fin b => fin (a.sub b)

def F.mul : F → F → F
  | nan, _ => nan
  | _, nan => nan
  | inf s, inf t => inf (s == t)
  | inf s, fin b => if b.n = 0 then nan else inf (s == decide (0 < b.n))
  | fin a, inf t => if a.n = 0 then nan else inf (t == decide (0 < a.n))
  | fin a, fin b => fin (a.mul b)

def F.div : F → F → F
  | nan, _ => nan
  | _, nan => nan
  | inf _, inf _ => nan
  | inf s, fin b => if 0 ≤ b.n then inf s else inf (!s)
  | fin _, inf _ => fin 0
  | fin a, fin b =>
    if b.n = 0 then (if a.n = 0 then nan else inf (decide (0 < a.n))) else fin (a.div b)

def F.lt : F → F → Bool
  | nan, _ => false
  | _, nan => false
  | inf s, inf t => !s && t
  | inf s, fin _ => !s
  | fin _, inf t => t
  | fin a, fin b => a.blt b

def F.le : F → F → Bool
  | nan, _ => false
  | _, nan => false
  | inf s, inf t => !s || t
  | inf s, fin _ => !s
  | fin _, inf t => t
  | fin a, fin b => a.ble b

def F.gt (a b : F) : Bool := F.lt b a

def F.ge (a b : F) : Bool := F.le b a

/-- Float equality `==`: false on NaN. -/
def F.feq : F → F → Bool
  | nan, _ => false
  | _, nan => false
  | inf s, inf t => s == t
  | inf _, fin _ => false
  | fin _, inf _ => false
  | fin a, fin b => decide (a = b)

/-- Rust scalar `f32::max` (NaN-ignoring). -/
def F.max (a b : F) : F :=
  match a, b with
  | nan, b => b
  | a, nan => a
  | a, b => if F.lt a b then b else a

/-- Rust scalar `f32::min` (NaN-ignoring). -/
def F.min (a b : F) : F :=
  match a, b with
  | nan, b => b
  | a, nan => a
  | a, b => if F.lt b a then b else a

/-- SSE `maxps` as used by `glam::Vec3A::max`: second operand on NaN. -/
def F.maxps (a b : F) : F :=
  if a.isNan || b.isNan then b else if F.lt a b then b else a

/-- SSE `minps` as used by `glam::Vec3A::min`: second operand on NaN. -/
def F.minps (a b : F) : F :=
  if a.isNan || b.isNan then b else if F.lt b a then b else a

/-- Rust `f32::signum`: `±1` by sign bit, NaN on NaN (`0` is `+0.0`). -/
def F.signum : F → F
  | nan => nan
  | inf s => if s then fin 1 else fin ⟨-1, 1⟩
  | fin a => if 0 ≤ a.n then fin 1 else fin ⟨-1, 1⟩

def F.isSignPositive : F → Bool
  | nan => true
  | inf s => s
  | fin a => decide (0 ≤ a.n)

def F.floor : F → F
  | nan => nan
  | inf s => inf s
  | fin a => fin ⟨a.qfloor, 1⟩

def F.fabs : F → F
  | nan => nan
  | inf _ => inf true
  | fin a => fin a.qabs

def F.sqrt : F → F
  | nan => nan
  | inf s => if s then inf true else nan
  | fin a => if a.n < 0 then nan else fin a.sqrtA

/-- `f32 as i32`: truncation toward zero, saturating, NaN to `0`. -/
def F.toI32 : F → ℤ
  | nan => 0
  | inf s => if s then 2 ^ 31 - 1 else -(2 ^ 31)
  | fin a =>
    (fun (t : ℤ) =>
      if t < -(2 ^ 31) then -(2 ^ 31) else if 2 ^ 31 - 1 < t then 2 ^ 31 - 1 else t)
    (if 0 ≤ a.n then a.qfloor else a.qceil)

/-- `i32 as usize` (64-bit): value modulo `2^64`. -/
def usizeCast (z : ℤ) : ℕ := (z % 2 ^ 64).toNat

instance : Neg Q := ⟨Q.neg⟩

/-! ## Float vectors and rays (`glam::Vec3A`, `Ray`) -/

structure FVec3 where
  x : F
  y : F
  z : F
deriving DecidableEq, Repr

def FVec3.add (a b : FVec3) : FVec3 := ⟨F.add a.x b.x, F.add a.y b.y, F.add a.z b.z⟩

def FVec3.sub (a b : FVec3) : FVec3 := ⟨F.sub a.x b.x, F.sub a.y b.y, F.sub a.z b.z⟩

/-- Scalar times vector. -/
def FVec3.smul (t : F) (v : FVec3) : FVec3 := ⟨F.mul t v.x, F.mul t v.y, F.mul t v.z⟩

/-- Componentwise division (`Vec3A / Vec3A`). -/
def FVec3.divv (a b : FVec3) : FVec3 := ⟨F.div a.x b.x, F.div a.y b.y, F.div a.z b.z⟩

def FVec3.absv (v : FVec3) : FVec3 := ⟨v.x.fabs, v.y.fabs, v.z.fabs⟩

def FVec3.floorv (v : FVec3) : FVec3 := ⟨v.x.floor, v.y.floor, v.z.floor⟩

def FVec3.signumv (v : FVec3) : FVec3 := ⟨v.x.signum, v.y.signum, v.z.signum⟩

/-- `Vec3A::max` (SSE semantics). -/
def FVec3.maxv (a b : FVec3) : FVec3 :=
  ⟨F.maxps a.x b.x, F.maxps a.y b.y, F.maxps a.z b.z⟩

/-- `Vec3A::min` (SSE semantics). -/
def FVec3.minv (a b : FVec3) : FVec3 :=
  ⟨F.minps a.x b.x, F.minps a.y b.y, F.minps a.z b.z⟩

/-- `Vec3A::clamp`: `self.max(min).min(max)`. -/
def FVec3.clampv (v lo hi : FVec3) : FVec3 := FVec3.minv (FVec3.maxv v lo) hi

/-- `IVec3::as_vec3a` (exact: all integers used here are far below `2^24`). -/
def FVec3.ofIVec (v : IVec3) : FVec3 :=
  ⟨F.fin (Q.ofInt v.x), F.fin (Q.ofInt v.y), F.fin (Q.ofInt v.z)⟩

/-- `Vec3A::as_ivec3` (saturating `as i32` casts). -/
def FVec3.toIVec (v : FVec3) : IVec3 := ⟨F.toI32 v.x, F.toI32 v.y, F.toI32 v.z⟩

def FVec3.dot (a b : FVec3) : F :=
  F.add (F.add (F.mul a.x b.x) (F.mul a.y b.y)) (F.mul a.z b.z)

def FVec3.length (v : FVec3) : F := F.sqrt (v.dot v)

def FVec3.distance (a b : FVec3) : F := (a.sub b).length

/-- `Vec3A::normalize`: multiply by the reciprocal of the length. -/
def FVec3.normalize (v : FVec3) : FVec3 := FVec3.smul (F.div (F.fin 1) v.length) v

structure FRay where
  origin : FVec3
  dir : FVec3
deriving DecidableEq, Repr

/-- `Ray::new` normalizes the direction. -/
def mkRay (origin dir : FVec3) : FRay := ⟨origin, dir.normalize⟩

/-- `Range<f32>` (`start..stop`). -/
structure FRange where
  start : F
  stop : F
deriving DecidableEq, Repr

/-! ## `IAabb::intersection` (slab test)

Written let-free: `slabX/Y/Z` are the per-axis `(*_min, *_max)` pairs,
`tMinXY/tMaxXY` the combined x/y interval, `tStart/tStop` the final
interval.  This mirrors the source line by line. -/

def slab (mn mx : ℤ) (o d : F) : F × F :=
  if F.ge (F.div (F.fin 1) d) (F.fin 0) then
    (F.mul (F.sub (F.fin (Q.ofInt mn)) o) (F.div (F.fin 1) d),
     F.mul (F.sub (F.fin (Q.ofInt mx)) o) (F.div (F.fin 1) d))
  else
    (F.mul (F.sub (F.fin (Q.ofInt mx)) o) (F.div (F.fin 1) d),
     F.mul (F.sub (F.fin (Q.ofInt mn)) o) (F.div (F.fin 1) d))

def IAabb.slabX (bb : IAabb) (ray : FRay) : F × F :=
  slab bb.min.x bb.max.x ray.origin.x ray.dir.x

def IAabb.slabY (bb : IAabb) (ray : FRay) : F × F :=
  slab bb.min.y bb.max.y ray.origin.y ray.dir.y

def IAabb.slabZ (bb : IAabb) (ray : FRay) : F × F :=
  slab bb.min.z bb.max.z ray.origin.z ray.dir.z

def IAabb.tMinXY (bb : IAabb) (ray : FRay) : F := F.max (bb.slabX ray).1 (bb.slabY ray).1

def IAabb.tMaxXY (bb : IAabb) (ray : FRay) : F := F.min (bb.slabX ray).2 (bb.slabY ray).2

def IAabb.tStart (bb : IAabb) (ray : FRay) : F := F.max (bb.tMinXY ray) (bb.slabZ ray).1

def IAabb.tStop (bb : IAabb) (ray : FRay) : F := F.min (bb.tMaxXY ray) (bb.slabZ ray).2

def IAabb.intersection (bb : IAabb) (ray : FRay) (range : FRange) : Option FRange :=
  if F.gt (bb.slabX ray).1 (bb.slabY ray).2 || F.gt (bb.slabY ray).1 (bb.slabX ray).2 then
    none
  else if F.gt (bb.tMinXY ray) (bb.slabZ ray).2 || F.gt (bb.slabZ ray).1 (bb.tMaxXY ray) then
    none
  else if F.gt (bb.tStart ray) range.stop || F.lt (bb.tStop ray) range.start then
    none
  else
    some ⟨bb.tStart ray, bb.tStop ray⟩

/-- C6 (amended): whenever `IAabb::intersection(ray, t_range)` returns an
interval, that interval passed the non-disjointness test — its start is
not greater than `t_range.end` and its end is not less than
`t_range.start` — but it is NOT clipped to `t_range`: the code returns
`Some(start..end)` unchanged after the test, so the interval can extend
beyond `t_range` on either side. -/
theorem claim_C6_intersection_unclipped (bb : IAabb) (ray : FRay) (range : FRange)
    (r : FRange) (h : bb.intersection ray range = some r) :
    F.gt r.start range.stop = false ∧ F.lt r.stop range.start = false := by
  unfold IAabb.intersection at h
  by_cases h1 : (F.gt (bb.slabX ray).1 (bb.slabY ray).2 ||
      F.gt (bb.slabY ray).1 (bb.slabX ray).2) = true
  · rw [if_pos h1] at h
    exact absurd h (by simp)
  · rw [if_neg h1] at h
    by_cases h2 : (F.gt (bb.tMinXY ray) (bb.slabZ ray).2 ||
        F.gt (bb.slabZ ray).1 (bb.tMaxXY ray)) = true
    · rw [if_pos h2] at h
      exact absurd h (by simp)
    · rw [if_neg h2] at h
      by_cases h3 : (F.gt (bb.tStart ray) range.stop ||
          F.lt (bb.tStop ray) range.start) = true
      · rw [if_pos h3] at h
        exact absurd h (by simp)
      · rw [if_neg h3] at h
        have hr : FRange.mk (bb.tStart ray) (bb.tStop ray) = r := Option.some.inj h
        simp only [Bool.or_eq_true, not_or, Bool.not_eq_true] at h3
        rw [← hr]
        exact ⟨h3.1, h3.2⟩

/-- Witness for C6 (amended): the unit box around the origin, a ray from
`(0,-5,0)` along `+y`, and range `0..10`; the returned interval is
`4..6`, which passes the non-disjointness test against `0..10`. -/
theorem claim_C6_intersection_unclipped_witness :
    F.gt (F.fin 4) (F.fin 10) = false ∧ F.lt (F.fin 6) (F.fin 0) = false :=
  claim_C6_intersection_unclipped
    (IAabb.mk (IVec3.mk 0 0 0) (IVec3.mk 1 1 1))
    (FRay.mk (FVec3.mk (F.fin 0) (F.fin (-5)) (F.fin 0))
      (FVec3.mk (F.fin 0) (F.fin 1) (F.fin 0)))
    (FRange.mk (F.fin 0) (F.fin 10))
    (FRange.mk (F.fin 4) (F.fin 6))
    (by decide)

/-- C6 counterexample to the claimed clipping: same box and ray with
range `0.01..5` — the function returns `Some(4..6)` whose end `6`
exceeds `t_range.end = 5`, so the returned interval is not contained in
`t_range`. -/
theorem claim_C6_counterexample :
    IAabb.intersection (IAabb.mk (IVec3.mk 0 0 0) (IVec3.mk 1 1 1))
      (FRay.mk (FVec3.mk (F.fin 0) (F.fin (-5)) (F.fin 0))
        (FVec3.mk (F.fin 0) (F.fin 1) (F.fin 0)))
      (FRange.mk (F.fin ⟨1, 100⟩) (F.fin 5)) =
      some (FRange.mk (F.fin 4) (F.fin 6)) ∧
    F.le (F.fin 6) (F.fin 5) = false := by
  decide

/-! ## Dense `Chunk::trace` (Amanatides–Woo DDA)

The loop is modelled with explicit fuel: `chunkLoop … fuel idx tmax`
returns `some result` when the Rust loop exits within `fuel` iterations
(`result` is the traced `Option<Voxel>`), and `none` when the loop is
still running after `fuel` iterations.  The linear index mirrors the
source exactly, including the `i32 as usize` casts and the
`width`/`height` strides used by `trace` (which differ from the
`length`/`height` layout of `iter`, see C7). -/

def chunkIndex (bb : IAabb) (idx : IVec3) : ℕ :=
  usizeCast idx.z + bb.width * (usizeCast idx.y + bb.height * usizeCast idx.x)

def chunkLoop (data : List (Option Voxel)) (bb : IAabb) (step : IVec3) (delta : FVec3) :
    ℕ → IVec3 → FVec3 → Option (Option Voxel)
  | 0, _, _ => none
  | fuel + 1, idx, tmax =>
    match data[chunkIndex bb idx]? with
    | none => some none
    | some (some v) => some (some v)
    | some none =>
      if F.lt tmax.x tmax.y && F.lt tmax.x tmax.z then
        if idx.x + step.x < 0 then some none
        else chunkLoop data bb step delta fuel ⟨idx.x + step.x, idx.y, idx.z⟩
          ⟨F.add tmax.x delta.x, tmax.y, tmax.z⟩
      else if F.lt tmax.y tmax.z then
        if idx.y + step.y < 0 then some none
        else chunkLoop data bb step delta fuel ⟨idx.x, idx.y + step.y, idx.z⟩
          ⟨tmax.x, F.add tmax.y delta.y, tmax.z⟩
      else
        if idx.z + step.z < 0 then some none
        else chunkLoop data bb step delta fuel ⟨idx.x, idx.y, idx.z + step.z⟩
          ⟨tmax.x, tmax.y, F.add tmax.z delta.z⟩

/-- `Chunk::trace`, with the loop fuelled as in `chunkLoop`. -/
def Chunk.traceF (c : Chunk) (ray : FRay) (fuel : ℕ) : Option (Option Voxel) :=
  match c.bb.intersection ray ⟨F.fin ⟨1, 100⟩, F.inf true⟩ with
  | none => some none
  | some range =>
    let rayStart := FVec3.add ray.origin
      (FVec3.smul (F.add range.start (F.fin ⟨1, 10000⟩)) ray.dir)
    let maxF := FVec3.ofIVec c.bb.max
    let minF := FVec3.ofIVec c.bb.min
    let entryPos := FVec3.sub rayStart minF
    let stepF := FVec3.signumv ray.dir
    let delta := FVec3.absv (FVec3.divv ⟨F.fin 1, F.fin 1, F.fin 1⟩ ray.dir)
    let pos := FVec3.clampv entryPos.floorv ⟨F.fin 0, F.fin 0, F.fin 0⟩ (FVec3.sub maxF minF)
    let tmax := FVec3.divv
      (FVec3.add (FVec3.sub pos entryPos) (FVec3.maxv stepF ⟨F.fin 0, F.fin 0, F.fin 0⟩))
      ray.dir
    chunkLoop c.data c.bb stepF.toIVec delta fuel pos.toIVec tmax

/-- C8 is refuted: `Chunk::trace` does NOT terminate for every chunk and
ray.  For the empty 2×2×2 chunk and the ray from `(0,-5,0)` with
direction `(0,1,NaN)` — which `intersection` accepts, since every NaN
comparison is false — the loop reaches the state
`curr_idx = (1,0,0)`, `tmax = (+∞, 0.9999, NaN)` with `step.z = 0`
(`signum(NaN) = NaN` casts to `0`): both branch conditions are false on
NaN, so the `z` arm runs forever without changing the state.  The
fuelled loop is still running after every fuel bound, i.e. the Rust
loop never exits. -/
theorem claim_C8_trace_diverges :
    ∀ fuel : ℕ,
      (Chunk.fromVoxels (fun _ => none) (IAabb.mk (IVec3.mk 0 0 0) (IVec3.mk 1 1 1))).traceF
        (FRay.mk (FVec3.mk (F.fin 0) (F.fin (-5)) (F.fin 0))
          (FVec3.mk (F.fin 0) (F.fin 1) F.nan)) fuel = none := by
  have hloop : ∀ fuel : ℕ,
      chunkLoop (List.replicate 8 none) (IAabb.mk (IVec3.mk 0 0 0) (IVec3.mk 1 1 1))
        (IVec3.mk 1 1 0) (FVec3.mk (F.inf true) (F.fin 1) F.nan) fuel (IVec3.mk 1 0 0)
        (FVec3.mk (F.inf true) (F.fin ⟨9999, 10000⟩) F.nan) = none := by
    intro fuel
    induction fuel with
    | zero => rfl
    | succ n ih => exact Eq.trans (by rfl) ih
  intro fuel
  exact Eq.trans (by rfl) (hloop fuel)

/-! ## Sparse `Node::trace` / `Octree::trace`

`plane_intersections` is modelled axis by axis (`planeX/Y/Z` mirror the
three blocks of the source); `sort_dirs` is Rust's stable sort (here an
insertion sort) with `None` ordered first, followed by the
`is_some`-filter, with each kept direction carrying its test distance
(so the `tests[next_dir].unwrap()` at the advance step is the carried
value).  The recursion over child nodes is fuelled; the per-node loop
advances structurally through the sorted-direction list, as every
iteration either returns or consumes one direction (`dirs.next()?`). -/

def IAabb.planeX (bb : IAabb) (ray : FRay) : Option F :=
  if (!F.feq ray.dir.x (F.fin 0)) &&
      (F.isSignPositive ray.dir.x ==
        F.isSignPositive (F.sub (F.fin (Q.ofInt bb.origin.x)) ray.origin.x)) then
    let t := F.div (F.sub (F.fin (Q.ofInt bb.origin.x)) ray.origin.x) ray.dir.x
    let i := FVec3.add ray.origin (FVec3.smul t ray.dir)
    if F.ge i.y (F.fin (Q.ofInt bb.min.y)) && F.ge i.z (F.fin (Q.ofInt bb.min.z)) &&
        F.le i.y (F.fin (Q.ofInt bb.max.y)) && F.le i.z (F.fin (Q.ofInt bb.max.z)) then
      some (FVec3.distance i ray.origin)
    else none
  else none

def IAabb.planeY (bb : IAabb) (ray : FRay) : Option F :=
  if (!F.feq ray.dir.y (F.fin 0)) &&
      (F.isSignPositive ray.dir.y ==
        F.isSignPositive (F.sub (F.fin (Q.ofInt bb.origin.y)) ray.origin.y)) then
    let t := F.div (F.sub (F.fin (Q.ofInt bb.origin.y)) ray.origin.y) ray.dir.y
    let i := FVec3.add ray.origin (FVec3.smul t ray.dir)
    if F.ge i.x (F.fin (Q.ofInt bb.min.x)) && F.ge i.z (F.fin (Q.ofInt bb.min.z)) &&
        F.le i.x (F.fin (Q.ofInt bb.max.x)) && F.le i.z (F.fin (Q.ofInt bb.max.z)) then
      some (FVec3.distance i ray.origin)
    else none
  else none

def IAabb.planeZ (bb : IAabb) (ray : FRay) : Option F :=
  if (!F.feq ray.dir.z (F.fin 0)) &&
      (F.isSignPositive ray.dir.z ==
        F.isSignPositive (F.sub (F.fin (Q.ofInt bb.origin.z)) ray.origin.z)) then
    let t := F.div (F.sub (F.fin (Q.ofInt bb.origin.z)) ray.origin.z) ray.dir.z
    let i := FVec3.add ray.origin (FVec3.smul t ray.dir)
    if F.ge i.x (F.fin (Q.ofInt bb.min.x)) && F.ge i.y (F.fin (Q.ofInt bb.min.y)) &&
        F.le i.x (F.fin (Q.ofInt bb.max.x)) && F.le i.y (F.fin (Q.ofInt bb.max.y)) then
      some (FVec3.distance i ray.origin)
    else none
  else none

/-- `Option<f32>` comparator of `sort_dirs`: `None` first (no NaN is fed
to it in this development, matching the `.unwrap()` in the source). -/
def optFLe : Option F → Option F → Bool
  | none, _ => true
  | some _, none => false
  | some a, some b => F.le a b

def insertSorted (a : ℕ × Option F) : List (ℕ × Option F) → List (ℕ × Option F)
  | [] => [a]
  | b :: t => if optFLe a.2 b.2 then a :: b :: t else b :: insertSorted a t

def isortDirs : List (ℕ × Option F) → List (ℕ × Option F)
  | [] => []
  | a :: t => insertSorted a (isortDirs t)

/-- `sort_dirs`: stable sort of the three axes by test value, keep the
`Some` ones with their distances. -/
def sortDirs (t0 t1 t2 : Option F) : List (ℕ × F) :=
  (isortDirs [(0, t0), (1, t1), (2, t2)]).filterMap
    (fun p => match p.2 with
      | some t => some (p.1, t)
      | none => none)

/-- `ray.origin.cmpgt(bb.origin.as_vec3a()).bitmask() as usize`. -/
def bitmaskIdx (o : FVec3) (borg : IVec3) : ℕ :=
  (if F.gt o.x (F.fin (Q.ofInt borg.x)) then 1 else 0) +
  2 * (if F.gt o.y (F.fin (Q.ofInt borg.y)) then 1 else 0) +
  4 * (if F.gt o.z (F.fin (Q.ofInt borg.z)) then 1 else 0)

/-- Array access `branches[idx]`; `idx` stays below 8 throughout. -/
def branchAt (cs : Fin 8 → Option ℕ) (i : ℕ) : Option ℕ :=
  if h : i < 8 then cs ⟨i, h⟩ else none

def leafAt (ls : Fin 8 → Option Voxel) (i : ℕ) : Option Voxel :=
  if h : i < 8 then ls ⟨i, h⟩ else none

/-- The in-node loop of `Node::trace`.  `recur` is the recursive call
into a child node (`nodes[next].trace(nodes, next_bb, start_ray)`); the
`% 8` in the octant index is a no-op since `idx < 8` throughout. -/
def nodeLoop (nodes : List Node) (node : Node) (bb : IAabb) (ray : FRay)
    (recur : Node → IAabb → FRay → Option Voxel) :
    ℕ → FRay → List (ℕ × F) → Option Voxel
  | idx, startRay, dirs =>
    match node with
    | Node.branch cs =>
      match branchAt cs idx with
      | none =>
        match dirs with
        | [] => none
        | (d, t) :: rest =>
          nodeLoop nodes node bb ray recur (idx ^^^ (1 <<< d))
            ⟨FVec3.add ray.origin (FVec3.smul t ray.dir), startRay.dir⟩ rest
      | some ci =>
        match nodes[ci]? with
        | none => none
        | some child =>
          match recur child (bb.octant ⟨idx % 8, Nat.mod_lt _ (by norm_num)⟩) startRay with
          | some v => some v
          | none =>
            match dirs with
            | [] => none
            | (d, t) :: rest =>
              nodeLoop nodes node bb ray recur (idx ^^^ (1 <<< d))
                ⟨FVec3.add ray.origin (FVec3.smul t ray.dir), startRay.dir⟩ rest
    | Node.leaf ls =>
      match leafAt ls idx with
      | some v => some v
      | none =>
        match dirs with
        | [] => none
        | (d, t) :: rest =>
          nodeLoop nodes node bb ray recur (idx ^^^ (1 <<< d))
            ⟨FVec3.add ray.origin (FVec3.smul t ray.dir), startRay.dir⟩ rest

/-- `Node::trace`, recursion over children fuelled. -/
def nodeTraceGo (nodes : List Node) : ℕ → Node → IAabb → FRay → Option Voxel
  | 0, _, _, _ => none
  | fuel + 1, node, bb, ray =>
    nodeLoop nodes node bb ray (fun child cbb cray => nodeTraceGo nodes fuel child cbb cray)
      (bitmaskIdx ray.origin bb.origin) ray
      (sortDirs (bb.planeX ray) (bb.planeY ray) (bb.planeZ ray))

/-- `Octree::trace` (debug disabled). -/
def Octree.traceF (o : Octree) (ray : FRay) (fuel : ℕ) : Option Voxel :=
  match o.bb.intersection ray ⟨F.fin ⟨1, 100⟩, F.inf true⟩ with
  | none => none
  | some range =>
    match o.nodes[0]? with
    | none => none
    | some root =>
      nodeTraceGo o.nodes fuel root o.bb
        (mkRay (FVec3.add ray.origin (FVec3.smul range.start ray.dir)) ray.dir)

/-- C1 is refuted: the two backends disagree on a ray that intersects
the scene AABB.  Over the box `origin (0,0,0), extents (1,1,1)` with the
generator that stores one voxel at `(0,0,0)` (both `from_voxels` builds
succeed: the sparse build only inserts the one `Some` voxel), the ray
from `(-1/2, -5, -1/2)` along `+y` hits nothing in the dense backend
(its DDA walks the column `x ∈ [-1,0)` of cells `[p, p+1)³`, which
holds no voxel, and exits by the array bound), while the sparse backend
returns the stored voxel (the octree leaf cell for `(0,0,0)` is
`(-1,0]³`, which contains the ray).  The two cell conventions are offset
by one voxel, so `DenseStorage::trace` and `SparseStorage::trace`
differ: `None` versus `Some(voxel)`. -/
theorem claim_C1_backend_divergence :
    (Chunk.fromVoxels
      (fun p => if p = IVec3.mk 0 0 0 then some (Voxel.mk (IVec3.mk 0 0 255)) else none)
      (IAabb.mk (IVec3.mk 0 0 0) (IVec3.mk 1 1 1))).traceF
      (FRay.mk (FVec3.mk (F.fin (-⟨1, 2⟩)) (F.fin (-5)) (F.fin (-⟨1, 2⟩)))
        (FVec3.mk (F.fin 0) (F.fin 1) (F.fin 0))) 10 = some none ∧
    (Octree.fromVoxelsChecked
      (fun p => if p = IVec3.mk 0 0 0 then some (Voxel.mk (IVec3.mk 0 0 255)) else none)
      (IAabb.mk (IVec3.mk 0 0 0) (IVec3.mk 1 1 1))).map
      (fun o => o.traceF
        (FRay.mk (FVec3.mk (F.fin (-⟨1, 2⟩)) (F.fin (-5)) (F.fin (-⟨1, 2⟩)))
          (FVec3.mk (F.fin 0) (F.fin 1) (F.fin 0))) 10) =
      some (some (Voxel.mk (IVec3.mk 0 0 255))) ∧
    (none : Option Voxel) ≠ some (Voxel.mk (IVec3.mk 0 0 255)) := by
  refine ⟨by decide, by decide, by decide⟩

/-! ## `Camera::get_ray`

In the source, `center` and `pixel00_loc` are `IVec3` and the deltas are
`Vec3A`.  `sample_square()` draws two fresh `rand::random::<f32>()`
values per call; the model takes this random offset (and the defocus
disk sample) as explicit arguments, so that the dependence of the
result on them is visible in the statements. -/

structure CameraM where
  center : IVec3
  pixel00_loc : IVec3
  pixel_delta_u : FVec3
  pixel_delta_v : FVec3
  defocus_angle : F
  defocus_disk_u : FVec3
  defocus_disk_v : FVec3
deriving DecidableEq, Repr

/-- `pixel00_loc.as_vec3a() + (i as f32 + offset.x) * Δu + (j as f32 + offset.y) * Δv`. -/
def CameraM.pixelSample (cam : CameraM) (i j : ℕ) (off : F × F) : FVec3 :=
  FVec3.add
    (FVec3.add (FVec3.ofIVec cam.pixel00_loc)
      (FVec3.smul (F.add (F.fin (Q.ofInt (i : ℤ))) off.1) cam.pixel_delta_u))
    (FVec3.smul (F.add (F.fin (Q.ofInt (j : ℤ))) off.2) cam.pixel_delta_v)

/-- `defocus_disk_sample()` with the two random draws `dsk` explicit. -/
def CameraM.diskSample (cam : CameraM) (dsk : F × F) : FVec3 :=
  FVec3.add (FVec3.add (FVec3.ofIVec cam.center)
    (FVec3.smul dsk.1 cam.defocus_disk_u))
    (FVec3.smul dsk.2 cam.defocus_disk_v)

/-- `Camera::get_ray(i, j)` with the random draws explicit. -/
def CameraM.getRay (cam : CameraM) (off dsk : F × F) (i j : ℕ) : FRay :=
  mkRay
    (if F.le cam.defocus_angle (F.fin 0) then FVec3.ofIVec cam.center
      else cam.diskSample dsk)
    (FVec3.normalize (FVec3.sub (cam.pixelSample i j off)
      (if F.le cam.defocus_angle (F.fin 0) then FVec3.ofIVec cam.center
        else cam.diskSample dsk)))

/-- C10 (amended): with `defocus_angle ≤ 0`, `get_ray(i, j)` returns the
ray whose origin is `lookfrom` (= `center`) and which aims at the
JITTERED sample `p₀₀ + (i + offset.x)·Δu + (j + offset.y)·Δv`, where
`offset = sample_square()` is a fresh random draw per call — not at the
fixed point `p₀₀ + i·Δu + j·Δv` of the claim, and not deterministically:
the result is a function of the drawn offset (see the counterexample).
The direction is the claimed normalization (applied by `get_ray` and
once more by `Ray::new`). -/
theorem claim_C10_getRay_jittered (cam : CameraM) (off dsk : F × F) (i j : ℕ)
    (h : F.le cam.defocus_angle (F.fin 0) = true) :
    (cam.getRay off dsk i j).origin = FVec3.ofIVec cam.center ∧
    (cam.getRay off dsk i j).dir =
      FVec3.normalize (FVec3.normalize
        (FVec3.sub (cam.pixelSample i j off) (FVec3.ofIVec cam.center))) := by
  unfold CameraM.getRay mkRay
  rw [if_pos h]
  exact ⟨rfl, rfl⟩

/-- Witness for C10 (amended): a concrete camera at the origin with
`p₀₀ = (0,3,4)`, `Δu = (16,0,0)`, `defocus_angle = 0`, pixel `(0,0)`,
offset `(3/4, 0)`. -/
theorem claim_C10_getRay_jittered_witness :
    ((CameraM.mk (IVec3.mk 0 0 0) (IVec3.mk 0 3 4)
        (FVec3.mk (F.fin 16) (F.fin 0) (F.fin 0))
        (FVec3.mk (F.fin 0) (F.fin 0) (F.fin 0)) (F.fin 0)
        (FVec3.mk (F.fin 0) (F.fin 0) (F.fin 0))
        (FVec3.mk (F.fin 0) (F.fin 0) (F.fin 0))).getRay
      (F.fin ⟨3, 4⟩, F.fin 0) (F.fin 0, F.fin 0) 0 0).origin =
      FVec3.ofIVec (IVec3.mk 0 0 0) ∧
    ((CameraM.mk (IVec3.mk 0 0 0) (IVec3.mk 0 3 4)
        (FVec3.mk (F.fin 16) (F.fin 0) (F.fin 0))
        (FVec3.mk (F.fin 0) (F.fin 0) (F.fin 0)) (F.fin 0)
        (FVec3.mk (F.fin 0) (F.fin 0) (F.fin 0))
        (FVec3.mk (F.fin 0) (F.fin 0) (F.fin 0))).getRay
      (F.fin ⟨3, 4⟩, F.fin 0) (F.fin 0, F.fin 0) 0 0).dir =
      FVec3.normalize (FVec3.normalize (FVec3.sub
        ((CameraM.mk (IVec3.mk 0 0 0) (IVec3.mk 0 3 4)
          (FVec3.mk (F.fin 16) (F.fin 0) (F.fin 0))
          (FVec3.mk (F.fin 0) (F.fin 0) (F.fin 0)) (F.fin 0)
          (FVec3.mk (F.fin 0) (F.fin 0) (F.fin 0))
          (FVec3.mk (F.fin 0) (F.fin 0) (F.fin 0))).pixelSample 0 0
          (F.fin ⟨3, 4⟩, F.fin 0))
        (FVec3.ofIVec (IVec3.mk 0 0 0)))) :=
  claim_C10_getRay_jittered
    (CameraM.mk (IVec3.mk 0 0 0) (IVec3.mk 0 3 4)
      (FVec3.mk (F.fin 16) (F.fin 0) (F.fin 0))
      (FVec3.mk (F.fin 0) (F.fin 0) (F.fin 0)) (F.fin 0)
      (FVec3.mk (F.fin 0) (F.fin 0) (F.fin 0))
      (FVec3.mk (F.fin 0) (F.fin 0) (F.fin 0)))
    (F.fin ⟨3, 4⟩, F.fin 0) (F.fin 0, F.fin 0) 0 0 (by decide)

/-- C10 counterexample to determinism / aiming at the fixed point: the
same camera and pixel `(0, 0)` with two outcomes of `sample_square()` —
offset `(0,0)` and offset `(3/4,0)` — give different unit rays:
direction `(0, 3/5, 4/5)` versus `(12/13, 3/13, 4/13)` (both exact:
the lengths are `√25 = 5` and `√169 = 13`). -/
theorem claim_C10_counterexample :
    ((CameraM.mk (IVec3.mk 0 0 0) (IVec3.mk 0 3 4)
        (FVec3.mk (F.fin 16) (F.fin 0) (F.fin 0))
        (FVec3.mk (F.fin 0) (F.fin 0) (F.fin 0)) (F.fin 0)
        (FVec3.mk (F.fin 0) (F.fin 0) (F.fin 0))
        (FVec3.mk (F.fin 0) (F.fin 0) (F.fin 0))).getRay
      (F.fin 0, F.fin 0) (F.fin 0, F.fin 0) 0 0).dir =
      FVec3.mk (F.fin 0) (F.fin ⟨3, 5⟩) (F.fin ⟨4, 5⟩) ∧
    ((CameraM.mk (IVec3.mk 0 0 0) (IVec3.mk 0 3 4)
        (FVec3.mk (F.fin 16) (F.fin 0) (F.fin 0))
        (FVec3.mk (F.fin 0) (F.fin 0) (F.fin 0)) (F.fin 0)
        (FVec3.mk (F.fin 0) (F.fin 0) (F.fin 0))
        (FVec3.mk (F.fin 0) (F.fin 0) (F.fin 0))).getRay
      (F.fin ⟨3, 4⟩, F.fin 0) (F.fin 0, F.fin 0) 0 0).dir =
      FVec3.mk (F.fin ⟨12, 13⟩) (F.fin ⟨3, 13⟩) (F.fin ⟨4, 13⟩) ∧
    FVec3.mk (F.fin 0) (F.fin ⟨3, 5⟩) (F.fin ⟨4, 5⟩) ≠
      FVec3.mk (F.fin ⟨12, 13⟩) (F.fin ⟨3, 13⟩) (F.fin ⟨4, 13⟩) := by
  refine ⟨by decide, by decide, by decide⟩
